import Mathlib

/-!
Verification development for the labelbase annotation codec.

This file embeds, in Lean, the core of `labelbase/annotate.py` and
`labelbase/converters/ontology.py`:

* the path codec (`pull_first_name_from_paths`, `get_child_paths`),
* the recursive annotation encoder (`classification_builder`, `ndjson_builder`),
* the ontology indexer (`map_layer`, `get_ontology_schema_to_name_path`),
* the annotation decoder (`get_leaf_paths`, `flatten_label`).

Modelling conventions:

* Python strings are `List Char` (`Chars`); `str.split`, slicing with a
  negative bound, `in`, and `startswith` are re-implemented below with
  Python's semantics.
* Python dictionaries and JSON-like values are one inductive `JVal` whose
  array/object constructors carry their own spine (`arrCons`, `objCons`),
  so every function on them is structural or fuel-bounded and reduces in
  the kernel.  Dictionaries preserve insertion order and `dictSet`
  overwrites in place, like CPython dicts.
* Code that can raise (`KeyError`, `IndexError`, `AttributeError`,
  `TypeError`) is modelled in `Option`: `none` is an uncaught exception.
* `list(set(...))` enumerates a Python set in an unspecified order, so the
  builders are parameterised by a `SetEnum`: an arbitrary deduplication
  function that returns a duplicate-free list with the same membership.
  `pySet` (keep-last order) and `revSet` are two concrete instances.
* Recursive functions whose Python counterparts recurse through data
  (not structure) take an explicit fuel argument; the public wrapper
  supplies a fuel that is proven sufficient, so the wrapper agrees with
  the Python function wherever the latter terminates.
-/

abbrev Chars := List Char

/-- The default divider `"///"` for name paths. -/
def div3 : Chars := "///".data

/-- Fuelled core of Python `str.split(sep)` for a non-empty separator:
leftmost, non-overlapping matches; `"".split(sep) = [""]`.  The fuel is
only bookkeeping: `pySplit` supplies `s.length`, which is sufficient. -/
def pySplitF (sep : Chars) : Nat → Chars → List Chars
  | _, [] => [[]]
  | 0, s => [s]
  | fuel+1, c :: rest =>
    if sep ≠ [] ∧ sep.isPrefixOf (c :: rest) then
      [] :: pySplitF sep fuel (List.drop sep.length (c :: rest))
    else
      match pySplitF sep fuel rest with
      | [] => [[c]]
      | seg :: segs => (c :: seg) :: segs

/-- Python `s.split(sep)` (for the non-empty separators used by the code). -/
def pySplit (sep s : Chars) : List Chars := pySplitF sep s.length s

/-- Joining a list of segments with a divider (used to state what the
child-path construction in `get_child_paths` computes). -/
def pyJoin (d : Chars) : List Chars → Chars
  | [] => []
  | [x] => x
  | x :: y :: rest => x ++ d ++ pyJoin d (y :: rest)

/-- Python slicing `s[:-k]`: drops the last `k` characters; `s[:-0]` is
`s[:0] = ""`. -/
def pySliceNeg (k : Nat) (l : Chars) : Chars :=
  if k = 0 then [] else l.take (l.length - k)

/-- Python `needle in hay` on strings (substring test). -/
def pyIn (needle : Chars) : Chars → Bool
  | [] => needle.isPrefixOf []
  | c :: t => needle.isPrefixOf (c :: t) || pyIn needle t

/-- `name_path.split(divider)[0]`: the first divider-delimited segment. -/
def firstSeg (d p : Chars) : Chars := (pySplit d p).headD []

/-- `classification_path.split(divider)[-1]`: the last segment. -/
def lastSeg (d p : Chars) : Chars := (pySplit d p).getLastD []

/-- Source: `annotate.get_child_paths`, body of the loop.  For one `path`,
builds `child_path` by concatenating `name + divider` over
`path.split(divider)[1:]` and then slicing off the trailing divider. -/
def childPathOf (d path : Chars) : Chars :=
  pySliceNeg d.length
    (((pySplit d path).drop 1).foldl (fun acc n => acc ++ n ++ d) [])

/-- Source: `annotate.get_child_paths`.  Keeps every path for which
`path.startswith(first)` holds (note: a raw prefix test, with no
divider-boundary check) and strips its first segment. -/
def get_child_paths (d first : Chars) (name_paths : List Chars) : List Chars :=
  name_paths.filterMap (fun path =>
    if first.isPrefixOf path then some (childPathOf d path) else none)

/-- A Python set enumeration: what `list(set(xs))` may return.  CPython
string hashing is salted, so the order is arbitrary; any duplicate-free
list with the same membership is a possible behaviour. -/
structure SetEnum where
  fn : List Chars → List Chars
  nodup : ∀ l, (fn l).Nodup
  mem : ∀ l x, x ∈ fn l ↔ x ∈ l

/-- One concrete set enumeration (keeps the last occurrence of each
element, like `List.dedup`). -/
def pySet : SetEnum where
  fn := fun l => l.dedup
  nodup := fun l => l.nodup_dedup
  mem := fun _ _ => List.mem_dedup

/-- Another concrete set enumeration, reversing `pySet`'s order. -/
def revSet : SetEnum where
  fn := fun l => l.dedup.reverse
  nodup := fun l => (List.nodup_reverse).2 l.nodup_dedup
  mem := fun _ _ => by rw [List.mem_reverse]; exact List.mem_dedup

/-- Source: `annotate.pull_first_name_from_paths`: the first segment of
every path, deduplicated via `list(set(...))`. -/
def pull_first_name_from_paths (su : SetEnum) (d : Chars)
    (name_paths : List Chars) : List Chars :=
  su.fn (name_paths.map (fun name_path => firstSeg d name_path))

/-! ## JSON-like values and Python dictionaries -/

/-- JSON-like Python values.  Arrays and objects carry their own spine so
that all recursion on them is structural: `arr [a, b]` is
`arrCons a (arrCons b arrNil)` and `{k: v}` is `objCons k v objNil`. -/
inductive JVal where
  | s (v : Chars)
  | num (n : Int)
  | arrNil
  | arrCons (hd : JVal) (tl : JVal)
  | objNil
  | objCons (k : Chars) (v : JVal) (tl : JVal)
deriving DecidableEq

/-- Build an array value from a list. -/
def jarr : List JVal → JVal
  | [] => JVal.arrNil
  | v :: rest => JVal.arrCons v (jarr rest)

/-- Build an object value from an association list. -/
def jobj : List (Chars × JVal) → JVal
  | [] => JVal.objNil
  | (k, v) :: rest => JVal.objCons k v (jobj rest)

/-- The items of an array value (empty for non-arrays). -/
def jitems : JVal → List JVal
  | JVal.arrCons hd tl => hd :: jitems tl
  | _ => []

/-- The entries of an object value (empty for non-objects). -/
def jentries : JVal → List (Chars × JVal)
  | JVal.objCons k v tl => (k, v) :: jentries tl
  | _ => []

/-- Is this value an array? (a well-formed array spine starts with
`arrCons` or `arrNil`). -/
def isArr : JVal → Bool
  | JVal.arrNil => true
  | JVal.arrCons _ _ => true
  | _ => false

/-- Is this value an object? -/
def isObj : JVal → Bool
  | JVal.objNil => true
  | JVal.objCons _ _ _ => true
  | _ => false

/-- Python `d[k]` on a dict value: first matching key, `none` = `KeyError`
(also `none` when the value is not a dict, modelling `TypeError`). -/
def dictGet : JVal → Chars → Option JVal
  | JVal.objCons k v tl, key => if k = key then some v else dictGet tl key
  | _, _ => none

/-- Python `d[k] = v`: overwrite in place if the key exists, else append. -/
def dictSet : JVal → Chars → JVal → JVal
  | JVal.objCons k v tl, key, nv =>
      if k = key then JVal.objCons k nv tl else JVal.objCons k v (dictSet tl key nv)
  | JVal.objNil, key, nv => JVal.objCons key nv JVal.objNil
  | other, _, _ => other

/-- Python `d.update(m)`: `dictSet` for each entry of `m` in order. -/
def dictUpdateWith (l m : JVal) : JVal :=
  (jentries m).foldl (fun acc kv => dictSet acc kv.1 kv.2) l

/-- The keys of a dict value, in insertion order. -/
def dictKeys (v : JVal) : List Chars := (jentries v).map Prod.fst

/-- Python `l[i]` on an array value. -/
def jIdx (v : JVal) (i : Nat) : Option JVal := (jitems v).get? i

/-- Python truthiness of a value. -/
def jTruthy : JVal → Bool
  | JVal.s c => c ≠ []
  | JVal.num n => n ≠ 0
  | JVal.arrNil => false
  | JVal.arrCons _ _ => true
  | JVal.objNil => false
  | JVal.objCons _ _ _ => true

/-- Expect a string value (Python code calling a `str` method on anything
else raises `AttributeError`). -/
def asStr : JVal → Option Chars
  | JVal.s c => some c
  | _ => none

/-- Expect an array of strings. -/
def asStrList (v : JVal) : Option (List Chars) :=
  if isArr v then (jitems v).mapM asStr else none

/-- Structural size of a value, used as fuel for recursion through data. -/
def jsize : JVal → Nat
  | JVal.s _ => 1
  | JVal.num _ => 1
  | JVal.arrNil => 1
  | JVal.objNil => 1
  | JVal.arrCons hd tl => 1 + jsize hd + jsize tl
  | JVal.objCons _ v tl => 1 + jsize v + jsize tl

/-- Fuel measure for a list of values. -/
def jlsize (l : List JVal) : Nat := (l.map jsize).sum + l.length

/-! ## The annotation encoder (`annotate.py`) -/

/-- Fuel measure for `classification_builder`: total length of the answer
paths (each path contributing its length plus one). -/
def cbMeasure (aps : List Chars) : Nat := (aps.map (fun p => p.length + 1)).sum

/-- Fuelled core of `annotate.classification_builder`.  Mirrors the source
line by line; recursion into nested classifications decreases `cbMeasure`,
and the wrapper `classification_builder` supplies sufficient fuel.
`none` models an uncaught Python exception (`KeyError` on a missing
ontology-index entry, `IndexError` on `pull_first_name_from_paths(...)[0]`
of an empty list). -/
def cbF (su : SetEnum) (d : Chars) (ontology_index : JVal) (tool_name : Chars) :
    Nat → Chars → List Chars → Option JVal
  | 0, _, _ => none
  | fuel+1, classification_path, answer_paths => do
    let index_input :=
      if tool_name ≠ [] then tool_name ++ d ++ classification_path else classification_path
    let entry ← dictGet ontology_index index_input
    let c_type ← dictGet entry "type".data
    let c_name :=
      if pyIn d classification_path then lastSeg d classification_path else classification_path
    if c_type = JVal.s "radio".data then
      match pull_first_name_from_paths su d answer_paths with
      | [] => none
      | answer_name :: _ => do
        let n_c_paths := get_child_paths d answer_name answer_paths
        let n_c_names := pull_first_name_from_paths su d n_c_paths
        let nested ← (n_c_names.filter (fun x => x ≠ [])).mapM (fun n_c_name =>
          cbF su d ontology_index tool_name fuel
            (classification_path ++ d ++ answer_name ++ d ++ n_c_name)
            (get_child_paths d n_c_name n_c_paths))
        let answer := jobj ([("name".data, JVal.s answer_name)] ++
          (if nested ≠ [] then [("classifications".data, jarr nested)] else []))
        pure (jobj [("name".data, JVal.s c_name), ("answer".data, answer)])
    else if c_type = JVal.s "checklist".data then do
      let answer_names := pull_first_name_from_paths su d answer_paths
      let answers ← answer_names.mapM (fun answer_name => do
        let n_c_paths := get_child_paths d answer_name answer_paths
        let n_c_names := pull_first_name_from_paths su d n_c_paths
        let nested ← (n_c_names.filter (fun x => x ≠ [])).mapM (fun n_c_name =>
          cbF su d ontology_index tool_name fuel
            (classification_path ++ d ++ answer_name ++ d ++ n_c_name)
            (get_child_paths d n_c_name n_c_paths))
        pure (jobj ([("name".data, JVal.s answer_name)] ++
          (if nested ≠ [] then [("classifications".data, jarr nested)] else []))))
      pure (jobj [("name".data, JVal.s c_name), ("answers".data, jarr answers)])
    else
      match answer_paths with
      | [] => none
      | p :: _ => pure (jobj [("name".data, JVal.s c_name), ("answer".data, JVal.s p)])

/-- Source: `annotate.classification_builder`. -/
def classification_builder (su : SetEnum) (d : Chars) (ontology_index : JVal)
    (tool_name classification_path : Chars) (answer_paths : List Chars) : Option JVal :=
  cbF su d ontology_index tool_name (cbMeasure answer_paths + 1)
    classification_path answer_paths

/-- The string `str(lb.MediaType.Geospatial_Tile)` compared against
`ontology_index['project_type']` (its exact contents never matter: only
whether the stored project type equals it). -/
def geoTileStr : Chars := "MediaType.Geospatial_Tile".data

/-- The tool-type names caught by the first branch of `ndjson_builder`. -/
def toolTypeVals : List JVal :=
  [JVal.s "bbox".data, JVal.s "polygon".data, JVal.s "line".data, JVal.s "point".data,
   JVal.s "mask".data, JVal.s "named-entity".data, JVal.s "geo_bbox".data,
   JVal.s "geo_polygon".data, JVal.s "geo_line".data, JVal.s "geo_point".data]

/-- Python numeric subtraction on values (`TypeError` otherwise). -/
def jSub (a b : JVal) : Option JVal :=
  match a, b with
  | JVal.num x, JVal.num y => some (JVal.num (x - y))
  | _, _ => none

/-- Source: `annotate.ndjson_builder`.  Parameters beyond the source's:
`su` models `list(set(...))` enumeration, `maskB` the external
`mask_to_bytes` collaborator, and `u` the fresh `uuid.uuid4()` string.
The float literal `0.0` of the confidence default is modelled as `num 0`.
Non-string members of a name-path list make the Python code raise inside
`str.split`/`str.startswith`; they are mapped to `none` via `asStrList`. -/
def ndjson_builder (su : SetEnum) (maskB : JVal → JVal → JVal) (u : Chars)
    (top_level_name : Chars) (annot_input : List JVal) (ontology_index : JVal)
    (confidence : Bool) (mask_method : Chars) (d : Chars) : Option JVal := do
  let tEntry ← dictGet ontology_index top_level_name
  let tType ← dictGet tEntry "type".data
  let pType ← dictGet ontology_index "project_type".data
  let annotType ←
    if pType = JVal.s geoTileStr then
      match tType with
      | JVal.s t => some (JVal.s ("geo_".data ++ t))
      | _ => none
    else some tType
  let ndjson := jobj [("uuid".data, JVal.s u)]
  if annotType ∈ toolTypeVals then do
    let ndjson :=
      if confidence then
        dictSet ndjson "confidence".data
          (match annot_input with | [_, _, c] => c | _ => JVal.num 0)
      else ndjson
    let ndjson := dictSet ndjson "name".data (JVal.s top_level_name)
    let ndjson ←
      if annotType = JVal.s "geo_bbox".data then do
        let a0 ← annot_input[0]?
        let a00 ← jIdx a0 0
        let p1 ← jIdx a00 1
        let p3 ← jIdx a00 3
        let x1 ← jIdx p1 0
        let y1 ← jIdx p1 1
        let x3 ← jIdx p3 0
        let y3 ← jIdx p3 1
        let hgt ← jSub y3 y1
        let wdt ← jSub x3 x1
        pure (dictSet ndjson "bbox".data (jobj
          [("top".data, y1), ("left".data, x1), ("height".data, hgt), ("width".data, wdt)]))
      else if annotType = JVal.s "geo_polygon".data then do
        let a0 ← annot_input[0]?
        let a00 ← jIdx a0 0
        if isArr a00 then do
          let pts ← (jitems a00).mapM (fun sub => do
            let x ← jIdx sub 0
            let y ← jIdx sub 1
            pure (jobj [("x".data, x), ("y".data, y)]))
          pure (dictSet ndjson "polygon".data (jarr pts))
        else none
      else if annotType = JVal.s "geo_line".data then do
        let a0 ← annot_input[0]?
        if isArr a0 then do
          let pts ← (jitems a0).mapM (fun sub => do
            let x ← jIdx sub 0
            let y ← jIdx sub 1
            pure (jobj [("x".data, x), ("y".data, y)]))
          pure (dictSet ndjson "line".data (jarr pts))
        else none
      else if annotType = JVal.s "geo_point".data then do
        let a0 ← annot_input[0]?
        let x ← jIdx a0 0
        let y ← jIdx a0 1
        pure (dictSet ndjson "point".data (jobj [("x".data, x), ("y".data, y)]))
      else if annotType = JVal.s "bbox".data then do
        let a0 ← annot_input[0]?
        let t ← jIdx a0 0
        let l ← jIdx a0 1
        let hgt ← jIdx a0 2
        let wdt ← jIdx a0 3
        pure (dictSet ndjson "bbox".data (jobj
          [("top".data, t), ("left".data, l), ("height".data, hgt), ("width".data, wdt)]))
      else if annotType = JVal.s "polygon".data ∨ annotType = JVal.s "line".data then do
        let key := if annotType = JVal.s "polygon".data then "polygon".data else "line".data
        let a0 ← annot_input[0]?
        if isArr a0 then do
          let pts ← (jitems a0).mapM (fun xy_pair => do
            let x ← jIdx xy_pair 0
            let y ← jIdx xy_pair 1
            pure (jobj [("x".data, x), ("y".data, y)]))
          pure (dictSet ndjson key (jarr pts))
        else none
      else if annotType = JVal.s "point".data then do
        let a0 ← annot_input[0]?
        let x ← jIdx a0 0
        let y ← jIdx a0 1
        pure (dictSet ndjson "point".data (jobj [("x".data, x), ("y".data, y)]))
      else if annotType = JVal.s "mask".data then do
        let a0 ← annot_input[0]?
        if mask_method = "url".data then do
          let uri ← jIdx a0 0
          let rgb ← jIdx a0 1
          pure (dictSet ndjson "mask".data (jobj
            [("instanceURI".data, uri), ("colorRGB".data, rgb)]))
        else if mask_method = "array".data then do
          let i ← jIdx a0 0
          let c ← jIdx a0 1
          pure (dictSet ndjson "mask".data (jobj [("png".data, maskB i c)]))
        else do
          let png ← jIdx a0 0
          pure (dictSet ndjson "mask".data (jobj [("png".data, png)]))
      else do
        -- named-entity: the source writes `ndjson['data']["location"] = {...}`;
        -- the right-hand side is evaluated first, then the lookup
        -- `ndjson['data']` raises KeyError when the key is absent.
        let a0 ← annot_input[0]?
        let st ← jIdx a0 0
        let en ← jIdx a0 1
        let dv ← dictGet ndjson "data".data
        if isObj dv then
          pure (dictSet ndjson "data".data
            (dictSet dv "location".data (jobj [("start".data, st), ("end".data, en)])))
        else none
    let a1 ← annot_input[1]?
    if jTruthy a1 then do
      let paths ← asStrList a1
      let classification_names := pull_first_name_from_paths su d paths
      let cls ← classification_names.mapM (fun classification_name =>
        classification_builder su d ontology_index top_level_name classification_name
          (get_child_paths d classification_name paths))
      pure (dictSet ndjson "classifications".data (jarr cls))
    else
      pure ndjson
  else do
    let a0 ← annot_input[0]?
    let p ← asStr a0
    let cb ← classification_builder su d ontology_index [] top_level_name [p]
    let ndjson := dictUpdateWith ndjson cb
    if confidence then
      pure (dictSet ndjson "confidence".data
        (match annot_input with | [_, c] => c | _ => JVal.num 0))
    else
      pure ndjson

/-! ## The ontology indexer (`converters/ontology.py`) -/

/-- Fuelled core of `ontology.map_layer`.  Nodes are Python dicts probed
for their keys exactly as in the source (`"tool" in node.keys()`, then
`"instructions"`, else option).  Node names and types pass through
f-strings in the source, so they are required to be strings here.
`none` models an uncaught `KeyError` on a malformed node (or exhausted
fuel, which the wrapper's choice of fuel makes unreachable). -/
def mlF (divider : Chars) (invert detailed : Bool) :
    Nat → JVal → List JVal → Chars → Nat → Option (JVal × Nat)
  | _, feature_dict, [], _, encoded_value => some (feature_dict, encoded_value)
  | 0, _, _ :: _, _, _ => none
  | fuel+1, feature_dict, node :: rest, parent_name_path, encoded_value => do
    let encoded_value := encoded_value + 1
    let info ←
      match dictGet node "tool".data with
      | some tv => do
          let node_name ← dictGet node "name".data >>= asStr
          let next_layer ← dictGet node "classifications".data
          let node_type ← asStr tv
          pure (node_name, next_layer, node_type, "tool".data)
      | none =>
        match dictGet node "instructions".data with
        | some iv => do
            let node_name ← asStr iv
            let next_layer ← dictGet node "options".data
            let node_type ← dictGet node "type".data >>= asStr
            pure (node_name, next_layer, node_type, "classification".data)
        | none => do
            let node_name ← dictGet node "label".data >>= asStr
            let next_layer := (dictGet node "options".data).getD (jarr [])
            let node_kind :=
              if jTruthy next_layer then "branch_option".data else "leaf_option".data
            pure (node_name, next_layer, "option".data, node_kind)
    let (node_name, next_layer, node_type, node_kind) := info
    let name_path :=
      if parent_name_path ≠ [] then parent_name_path ++ divider ++ node_name else node_name
    let fsid ← dictGet node "featureSchemaId".data >>= asStr
    let dict_key := if !invert then fsid else name_path
    let dict_value :=
      if detailed then
        if !invert then
          jobj [("name".data, JVal.s node_name), ("type".data, JVal.s node_type),
                ("kind".data, JVal.s node_kind), ("encoded_value".data, JVal.num encoded_value),
                ("name_path".data, JVal.s name_path)]
        else
          jobj [("name".data, JVal.s node_name), ("type".data, JVal.s node_type),
                ("kind".data, JVal.s node_kind), ("encoded_value".data, JVal.num encoded_value),
                ("schema_id".data, JVal.s fsid)]
      else
        if !invert then JVal.s name_path else JVal.s fsid
    let feature_dict := dictSet feature_dict dict_key dict_value
    let step ←
      if jTruthy next_layer then
        mlF divider invert detailed fuel feature_dict (jitems next_layer) name_path encoded_value
      else some (feature_dict, encoded_value)
    let (feature_dict, encoded_value) := step
    mlF divider invert detailed fuel feature_dict rest parent_name_path encoded_value

/-- Source: `ontology.map_layer` (the wrapper supplying sufficient fuel). -/
def map_layer (divider : Chars) (invert detailed : Bool) (feature_dict : JVal)
    (node_layer : List JVal) (parent_name_path : Chars) (encoded_value : Nat) :
    Option (JVal × Nat) :=
  mlF divider invert detailed (jlsize node_layer) feature_dict node_layer
    parent_name_path encoded_value

/-- Source: `ontology.get_ontology_schema_to_name_path`.  The embedding
takes the normalized ontology dictionary directly (the source also
accepts a labelbox `Ontology` object, replacing it by its `.normalized`
dict, and raises `TypeError` on any other input). -/
def get_ontology_schema_to_name_path (ontology : JVal) (divider : Chars)
    (invert detailed : Bool) : Option JVal := do
  let tools ← dictGet ontology "tools".data
  let step ←
    if jTruthy tools then
      map_layer divider invert detailed (jobj []) (jitems tools) [] 0
    else some (jobj [], 0)
  let (working_dictionary, working_encoded_value) := step
  let cls ← dictGet ontology "classifications".data
  if jTruthy cls then do
    let res ← map_layer divider invert detailed working_dictionary (jitems cls) []
      working_encoded_value
    pure res.1
  else
    pure working_dictionary

/-! ## The annotation decoder (`annotate.py`) -/

/-- Fuelled core of `annotate.get_leaf_paths`.  Walks exported
classification dicts (`text_answer` / `checklist_answers` /
`radio_answer`), concatenating names with the divider and collecting the
leaf name paths.  Note the source checks all three answer keys in
sequence on the same node (no `elif`), and a `text_answer` rebinds
`name_path` before the other two checks; the embedding mirrors this. -/
def glpF (divider : Chars) : Nat → List JVal → Chars → Option (List Chars)
  | _, [], _ => some []
  | 0, _ :: _, _ => none
  | fuel+1, classification :: rest, current_path => do
    let nm ← dictGet classification "name".data >>= asStr
    let name_path0 := if current_path = [] then nm else current_path ++ divider ++ nm
    let (name_path, textPart) ←
      match dictGet classification "text_answer".data with
      | some ta => do
          let cs ← dictGet ta "content".data >>= asStr
          let np := name_path0 ++ divider ++ cs
          pure (np, [np])
      | none => pure (name_path0, ([] : List Chars))
    let chkPart ←
      match dictGet classification "checklist_answers".data with
      | some ca =>
          if isArr ca then do
            let parts ← (jitems ca).mapM (fun answer => do
              let ans ← dictGet answer "name".data >>= asStr
              let new_path := name_path ++ divider ++ ans
              match dictGet answer "classifications".data with
              | some acv =>
                  if isArr acv then
                    if (jitems acv).length > 0 then
                      glpF divider fuel (jitems acv) new_path
                    else pure [new_path]
                  else none
              | none => pure [new_path])
            pure parts.flatten
          else none
      | none => pure []
    let radPart ←
      match dictGet classification "radio_answer".data with
      | some answer => do
          let ans ← dictGet answer "name".data >>= asStr
          let new_path := name_path ++ divider ++ ans
          match dictGet answer "classifications".data with
          | some acv =>
              if isArr acv then
                if (jitems acv).length > 0 then
                  glpF divider fuel (jitems acv) new_path
                else pure [new_path]
              else none
          | none => pure [new_path]
      | none => pure []
    let restPart ← glpF divider fuel rest current_path
    pure (textPart ++ chkPart ++ radPart ++ restPart)

/-- Source: `annotate.get_leaf_paths` (wrapper supplying sufficient fuel). -/
def get_leaf_paths (divider : Chars) (classifications : List JVal)
    (current_path : Chars) : Option (List Chars) :=
  glpF divider (jlsize classifications) classifications current_path

/-- Source: `annotate.flatten_label`.  `maskBytes` models the external
`mask_to_bytes` collaborator (first argument: the requested output
format); `su` models `list(set(...))` inside
`pull_first_name_from_paths`.  The `print(return_paths)` side effect of
the source has no observable value and is not modelled. -/
def flatten_label (su : SetEnum) (maskBytes : Chars → JVal → JVal → JVal)
    (label_dict ontology_index : JVal) (mask_method divider : Chars) :
    Option JVal := do
  let annots ← dictGet label_dict "annotations".data
  let objects ← dictGet annots "objects".data
  let classifications ← dictGet annots "classifications".data
  let white := jarr [JVal.num 255, JVal.num 255, JVal.num 255]
  let flat ←
    if jTruthy objects then
      (jitems objects).foldlM (fun flat_label obj => do
        let nm ← dictGet obj "name".data >>= asStr
        let ty0 ← (dictGet ontology_index nm).bind (dictGet · "type".data) >>= asStr
        let ty1 := if ty0 = "raster-segmentation".data then "mask".data else ty0
        let ty2 := if ty1 = "rectangle".data then "bbox".data else ty1
        let ty3 := if (dictGet obj "geojson".data).isSome then "geo_".data ++ ty2 else ty2
        let column_name := ty3 ++ divider ++ nm
        let flat_label :=
          if (dictGet flat_label column_name).isSome then flat_label
          else dictSet flat_label column_name JVal.arrNil
        let annotation_value ←
          match dictGet obj "bounding_box".data with
          | some bb => do
              let t ← dictGet bb "top".data
              let l ← dictGet bb "left".data
              let hgt ← dictGet bb "height".data
              let wdt ← dictGet bb "width".data
              pure (jarr [t, l, hgt, wdt])
          | none =>
            match dictGet obj "polygon".data with
            | some pg =>
                if isArr pg then do
                  let pts ← (jitems pg).mapM (fun coord => do
                    let x ← dictGet coord "x".data
                    let y ← dictGet coord "y".data
                    pure (jarr [x, y]))
                  pure (jarr pts)
                else none
            | none =>
              match dictGet obj "line".data with
              | some ln =>
                  if isArr ln then do
                    let pts ← (jitems ln).mapM (fun coord => do
                      let x ← dictGet coord "x".data
                      let y ← dictGet coord "y".data
                      pure (jarr [x, y]))
                    pure (jarr pts)
                  else none
              | none =>
                match dictGet obj "point".data with
                | some pt => do
                    let x ← dictGet pt "x".data
                    let y ← dictGet pt "y".data
                    pure (jarr [x, y])
                | none =>
                  match dictGet obj "data".data with
                  | some dv => do
                      let loc ← dictGet dv "location".data
                      let st ← dictGet loc "start".data
                      let en ← dictGet loc "end".data
                      pure (jarr [st, en])
                  | none =>
                    match dictGet obj "geojson".data with
                    | some gj => dictGet gj "coordinates".data
                    | none => do
                        let url ← (dictGet obj "mask".data).bind (dictGet · "url".data)
                        if mask_method = "url".data then
                          pure (jarr [url, white])
                        else if mask_method = "array".data then
                          pure (jarr [maskBytes "array".data url white, white])
                        else
                          pure (jarr [maskBytes "png".data url white, JVal.s "null".data])
        let return_paths ←
          match dictGet obj "classifications".data with
          | some cv =>
              if isArr cv then
                if (jitems cv).length > 0 then
                  get_leaf_paths divider (jitems cv) []
                else pure []
              else none
          | none => pure []
        let cur ← dictGet flat_label column_name
        pure (dictSet flat_label column_name
          (jarr (jitems cur ++ [jarr [annotation_value, jarr (return_paths.map JVal.s)]]))))
        (jobj [])
    else pure (jobj [])
  if jTruthy classifications then do
    let leaf_paths ← get_leaf_paths divider (jitems classifications) []
    let classification_names := pull_first_name_from_paths su divider leaf_paths
    classification_names.foldlM (fun flat_label classification_name => do
      let ty ← (dictGet ontology_index classification_name).bind (dictGet · "type".data)
        >>= asStr
      let child_paths := get_child_paths divider classification_name leaf_paths
      pure (dictSet flat_label (ty ++ divider ++ classification_name)
        (jarr [jarr (child_paths.map JVal.s)]))) flat
  else pure flat

/-! ## The platform's upload-to-export conversion (spec-modelled) -/

/-- Fuelled core of `uploadToExport` below.  The tag selects between a
classification node (`true`) and an answer object (`false`). -/
def u2eF : Nat → Bool → JVal → Option JVal
  | 0, _, _ => none
  | fuel+1, true, t => do
    let nv ← dictGet t "name".data
    match dictGet t "answers".data with
    | some av =>
        if isArr av then do
          let eans ← (jitems av).mapM (fun a => u2eF fuel false a)
          pure (jobj [("name".data, nv), ("checklist_answers".data, jarr eans)])
        else none
    | none =>
      match dictGet t "answer".data with
      | some (JVal.s tc) =>
          pure (jobj [("name".data, nv),
            ("text_answer".data, jobj [("content".data, JVal.s tc)])])
      | some a => do
          let ea ← u2eF fuel false a
          pure (jobj [("name".data, nv), ("radio_answer".data, ea)])
      | none => none
  | fuel+1, false, a => do
    let nv ← dictGet a "name".data
    match dictGet a "classifications".data with
    | some cv =>
        if isArr cv then do
          let ecs ← (jitems cv).mapM (fun c => u2eF fuel true c)
          pure (jobj [("name".data, nv), ("classifications".data, jarr ecs)])
        else none
    | none => pure (jobj [("name".data, nv)])

/-- Modelled from the spec: the external labeling platform's conversion of
an uploaded NDJSON classification into the exported-label format that
`flatten_label` consumes — this conversion happens inside the remote
platform and has no source in this repository.  Following the spec's
interface descriptions: an `answers` list becomes `checklist_answers`, an
`answer` object becomes `radio_answer`, a string `answer` becomes
`text_answer` with the string as its `content`, and nested
`classifications` lists convert recursively, names passing through
unchanged. -/
def uploadToExport (t : JVal) : Option JVal := u2eF (jsize t) true t

/-! ## Spec-side helpers for stating properties of the indexer -/

/-- The display name `map_layer` reads off a node (tool nodes use `name`,
classification nodes `instructions`, option nodes `label`), following the
same key probing as the source. -/
def nodeNameOf (node : JVal) : Option Chars :=
  match dictGet node "tool".data with
  | some _ => (dictGet node "name".data).bind asStr
  | none =>
    match dictGet node "instructions".data with
    | some iv => asStr iv
    | none => (dictGet node "label".data).bind asStr

/-- The child layer of a node, mirroring `map_layer`'s choice of
`classifications` / `options` / `options with default []`. -/
def childLayer (node : JVal) : List JVal :=
  match dictGet node "tool".data with
  | some _ => jitems ((dictGet node "classifications".data).getD JVal.arrNil)
  | none =>
    match dictGet node "instructions".data with
    | some _ => jitems ((dictGet node "options".data).getD JVal.arrNil)
    | none => jitems ((dictGet node "options".data).getD JVal.arrNil)

/-- The node's `featureSchemaId` string, if present. -/
def schemaIdOf (node : JVal) : Option Chars :=
  (dictGet node "featureSchemaId".data).bind asStr

/-- Depth-first pre-order node list of a layer (fuelled). -/
def preNodesF : Nat → List JVal → List JVal
  | 0, _ => []
  | _+1, [] => []
  | fuel+1, node :: rest =>
      node :: (preNodesF fuel (childLayer node) ++ preNodesF fuel rest)

/-- Depth-first pre-order node list of a layer. -/
def preNodes (layer : List JVal) : List JVal := preNodesF (jlsize layer) layer

/-- All nodes of an ontology in traversal order: the tools layer first,
then the classifications layer (each only when truthy, as in
`get_ontology_schema_to_name_path`). -/
def ontNodes (ontology : JVal) : List JVal :=
  (if jTruthy ((dictGet ontology "tools".data).getD JVal.arrNil) then
    preNodes (jitems ((dictGet ontology "tools".data).getD JVal.arrNil))
  else []) ++
  (if jTruthy ((dictGet ontology "classifications".data).getD JVal.arrNil) then
    preNodes (jitems ((dictGet ontology "classifications".data).getD JVal.arrNil))
  else [])

/-- A well-formed object spine: an `objCons` chain ending in `objNil`.
Every dict built by `jobj` or reached from one through `dictSet` has this
shape. -/
def wfObj : JVal → Bool
  | JVal.objNil => true
  | JVal.objCons _ _ tl => wfObj tl
  | _ => false

/-- The list `[some (num s), some (num (s+1)), …]` of length `n`: the
`encoded_value` fields produced by a counter that starts at `s`. -/
def encVals : Nat → Nat → List (Option JVal)
  | _, 0 => []
  | s, n + 1 => some (JVal.num s) :: encVals (s + 1) n

/-! ## Lemmas: the string codec -/

theorem pySplitF_ne_nil (sep : Chars) : ∀ fuel s, pySplitF sep fuel s ≠ [] := by
  intro fuel
  induction fuel with
  | zero =>
    intro s
    cases s <;> simp [pySplitF]
  | succ f ih =>
    intro s
    cases s with
    | nil => simp [pySplitF]
    | cons c rest =>
      by_cases hp : sep ≠ [] ∧ sep.isPrefixOf (c :: rest)
      · simp [pySplitF, hp]
      · simp only [pySplitF, hp, if_false]
        cases h : pySplitF sep f rest <;> simp

theorem pySplitF_fuel (sep : Chars) :
    ∀ f1 f2 s, s.length ≤ f1 → s.length ≤ f2 →
      pySplitF sep f1 s = pySplitF sep f2 s := by
  intro f1
  induction f1 with
  | zero =>
    intro f2 s h1 _
    have hs : s = [] := List.length_eq_zero.mp (Nat.le_zero.mp h1)
    subst hs
    cases f2 <;> simp [pySplitF]
  | succ f ih =>
    intro f2 s h1 h2
    cases s with
    | nil => cases f2 <;> simp [pySplitF]
    | cons c rest =>
      cases f2 with
      | zero => simp at h2
      | succ f2p =>
        by_cases hp : sep ≠ [] ∧ sep.isPrefixOf (c :: rest)
        · have hsep : 1 ≤ sep.length := by
            cases sep with
            | nil => exact absurd rfl hp.1
            | cons a b => simp
          simp only [pySplitF]
          rw [if_pos hp]
          have hb : (List.drop sep.length (c :: rest)).length ≤ f := by
            rw [List.length_drop]
            simp only [List.length_cons] at h1 ⊢
            omega
          have hb2 : (List.drop sep.length (c :: rest)).length ≤ f2p := by
            rw [List.length_drop]
            simp only [List.length_cons] at h2 ⊢
            omega
          rw [ih f2p _ hb hb2, if_pos hp]
        · simp only [pySplitF, hp, if_false]
          have hb : rest.length ≤ f := by simp only [List.length_cons] at h1; omega
          have hb2 : rest.length ≤ f2p := by simp only [List.length_cons] at h2; omega
          rw [ih f2p rest hb hb2]

theorem pySplit_eq_fuel (sep s : Chars) (fuel : Nat) (h : s.length ≤ fuel) :
    pySplit sep s = pySplitF sep fuel s :=
  pySplitF_fuel sep s.length fuel s le_rfl h

theorem pySplit_ne_nil (sep s : Chars) : pySplit sep s ≠ [] :=
  pySplitF_ne_nil sep s.length s

theorem pyJoin_cons_of_ne (d : Chars) (x : Chars) {S : List Chars} (h : S ≠ []) :
    pyJoin d (x :: S) = x ++ d ++ pyJoin d S := by
  cases S with
  | nil => exact absurd rfl h
  | cons y ys => rfl

theorem pyJoin_pySplitF (sep : Chars) :
    ∀ fuel s, s.length ≤ fuel → pyJoin sep (pySplitF sep fuel s) = s := by
  intro fuel
  induction fuel with
  | zero =>
    intro s h1
    have hs : s = [] := List.length_eq_zero.mp (Nat.le_zero.mp h1)
    subst hs
    simp [pySplitF, pyJoin]
  | succ f ih =>
    intro s h1
    cases s with
    | nil => simp [pySplitF, pyJoin]
    | cons c rest =>
      by_cases hp : sep ≠ [] ∧ sep.isPrefixOf (c :: rest)
      · have hsep : 1 ≤ sep.length := by
          cases sep with
          | nil => exact absurd rfl hp.1
          | cons a b => simp
        simp only [pySplitF]
        rw [if_pos hp]
        have hb : (List.drop sep.length (c :: rest)).length ≤ f := by
          rw [List.length_drop]
          simp only [List.length_cons] at h1 ⊢
          omega
        rw [pyJoin_cons_of_ne sep [] (pySplitF_ne_nil sep f _), ih _ hb]
        obtain ⟨t, ht⟩ := List.isPrefixOf_iff_prefix.mp hp.2
        rw [← ht, List.drop_left]
        simp
      · simp only [pySplitF, hp, if_false]
        cases hre : pySplitF sep f rest with
        | nil => exact absurd hre (pySplitF_ne_nil sep f rest)
        | cons s1 srest =>
          have hb : rest.length ≤ f := by simp only [List.length_cons] at h1; omega
          have hjoin : pyJoin sep (s1 :: srest) = rest := by rw [← hre, ih _ hb]
          cases srest with
          | nil =>
            simp only [pyJoin] at hjoin ⊢
            rw [hjoin]
          | cons y ys =>
            simp only [pyJoin] at hjoin ⊢
            simp only [List.cons_append, List.append_assoc] at hjoin ⊢
            rw [hjoin]

theorem pyJoin_pySplit (sep s : Chars) : pyJoin sep (pySplit sep s) = s :=
  pyJoin_pySplitF sep s.length s le_rfl

theorem firstSeg_cons_split {d p : Chars} :
    pySplit d p = firstSeg d p :: (pySplit d p).drop 1 := by
  cases h : pySplit d p with
  | nil => exact absurd h (pySplit_ne_nil d p)
  | cons s0 rest => simp [firstSeg, h]

theorem firstSeg_front (d p : Chars) : firstSeg d p <+: p := by
  have hj := pyJoin_pySplit d p
  rw [firstSeg_cons_split (d := d) (p := p)] at hj
  cases h : (pySplit d p).drop 1 with
  | nil =>
    rw [h] at hj
    simp only [pyJoin] at hj
    exact ⟨[], by simp [hj]⟩
  | cons y ys =>
    rw [h, pyJoin_cons_of_ne d _ (by simp)] at hj
    exact ⟨d ++ pyJoin d (y :: ys), by rw [← List.append_assoc]; exact hj⟩

theorem foldl_appendDiv (d : Chars) : ∀ (xs : List Chars) (acc : Chars),
    xs.foldl (fun a n => a ++ n ++ d) acc = acc ++ (xs.map (fun n => n ++ d)).flatten := by
  intro xs
  induction xs with
  | nil => intro acc; simp
  | cons x xs ih =>
    intro acc
    simp only [List.foldl_cons, List.map_cons, List.flatten_cons]
    rw [ih]
    simp [List.append_assoc]

theorem length_pos_of_ne_nil {l : Chars} (h : l ≠ []) : 1 ≤ l.length := by
  cases l with
  | nil => exact absurd rfl h
  | cons a b => simp

theorem pySliceNeg_append {k : Nat} (hk : k ≠ 0) (A B : Chars) (h : k ≤ B.length) :
    pySliceNeg k (A ++ B) = A ++ pySliceNeg k B := by
  simp only [pySliceNeg, hk, if_false]
  rw [List.length_append]
  have he : A.length + B.length - k = A.length + (B.length - k) := by omega
  rw [he, List.take_append]

theorem sliceNeg_flattenDiv {d : Chars} (hd : d ≠ []) : ∀ xs : List Chars,
    pySliceNeg d.length ((xs.map (fun n => n ++ d)).flatten) = pyJoin d xs := by
  have hk : d.length ≠ 0 := by
    intro h0
    exact hd (List.length_eq_zero.mp h0)
  intro xs
  induction xs with
  | nil => simp [pySliceNeg, hk, pyJoin]
  | cons x xs ih =>
    cases xs with
    | nil =>
      simp only [List.map_cons, List.map_nil, List.flatten_cons, List.flatten_nil,
        List.append_nil]
      simp only [pySliceNeg, hk, if_false]
      rw [List.length_append]
      have he : x.length + d.length - d.length = x.length := by omega
      rw [he, List.take_left]
      rfl
    | cons y ys =>
      simp only [List.map_cons, List.flatten_cons] at ih ⊢
      have hF : d.length ≤ ((y ++ d) ++ ((ys.map (fun n => n ++ d)).flatten)).length := by
        simp only [List.length_append]
        omega
      rw [pySliceNeg_append hk _ _ hF, ih, pyJoin_cons_of_ne d x (by simp)]

theorem childPathOf_eq {d : Chars} (hd : d ≠ []) (p : Chars) :
    childPathOf d p = pyJoin d ((pySplit d p).drop 1) := by
  unfold childPathOf
  rw [foldl_appendDiv]
  simp only [List.nil_append]
  exact sliceNeg_flattenDiv hd _

theorem split_decomp {d p : Chars} (h : (pySplit d p).drop 1 ≠ []) :
    p = firstSeg d p ++ d ++ pyJoin d ((pySplit d p).drop 1) := by
  have hj := pyJoin_pySplit d p
  rw [firstSeg_cons_split (d := d) (p := p), pyJoin_cons_of_ne d _ h] at hj
  exact hj.symm

theorem childPathOf_length_le {d : Chars} (hd : d ≠ []) (p : Chars) :
    (childPathOf d p).length ≤ p.length := by
  rw [childPathOf_eq hd]
  cases hdrop : (pySplit d p).drop 1 with
  | nil => simp [pyJoin]
  | cons y ys =>
    have hde := split_decomp (d := d) (p := p) (by rw [hdrop]; simp)
    rw [hdrop] at hde
    conv_rhs => rw [hde]
    simp only [List.length_append]
    omega

theorem childPathOf_length_lt {d : Chars} (hd : d ≠ []) {p : Chars} (hp : p ≠ []) :
    (childPathOf d p).length < p.length := by
  have hdlen : 1 ≤ d.length := length_pos_of_ne_nil hd
  rw [childPathOf_eq hd]
  cases hdrop : (pySplit d p).drop 1 with
  | nil =>
    simp only [pyJoin, List.length_nil]
    exact List.length_pos.mpr hp
  | cons y ys =>
    have hde := split_decomp (d := d) (p := p) (by rw [hdrop]; simp)
    rw [hdrop] at hde
    conv_rhs => rw [hde]
    simp only [List.length_append]
    omega

theorem cbMeasure_nil : cbMeasure [] = 0 := rfl

theorem cbMeasure_cons (p : Chars) (rest : List Chars) :
    cbMeasure (p :: rest) = p.length + 1 + cbMeasure rest := by
  simp only [cbMeasure, List.map_cons, List.sum_cons]

theorem cbMeasure_pos {aps : List Chars} (h : aps ≠ []) : 1 ≤ cbMeasure aps := by
  cases aps with
  | nil => exact absurd rfl h
  | cons p rest => rw [cbMeasure_cons]; omega

theorem gcp_measure_le {d : Chars} (hd : d ≠ []) (first : Chars) :
    ∀ aps, cbMeasure (get_child_paths d first aps) ≤ cbMeasure aps := by
  intro aps
  induction aps with
  | nil => simp [get_child_paths, cbMeasure]
  | cons p rest ih =>
    simp only [get_child_paths, List.filterMap_cons] at ih ⊢
    by_cases hsel : first.isPrefixOf p
    · simp only [hsel, if_true]
      rw [cbMeasure_cons, cbMeasure_cons]
      have hcl := childPathOf_length_le hd p
      omega
    · simp only [hsel, if_false, Bool.false_eq_true]
      rw [cbMeasure_cons]
      omega

theorem gcp_measure_lt {d : Chars} (hd : d ≠ []) {first : Chars} (hf : first ≠ [])
    {aps : List Chars} (hne : aps ≠ []) :
    cbMeasure (get_child_paths d first aps) < cbMeasure aps := by
  cases aps with
  | nil => exact absurd rfl hne
  | cons p rest =>
    simp only [get_child_paths, List.filterMap_cons]
    have hrest := gcp_measure_le hd first rest
    simp only [get_child_paths] at hrest
    by_cases hsel : first.isPrefixOf p
    · have hpne : p ≠ [] := by
        intro hp0
        subst hp0
        exact hf (List.prefix_nil.mp (List.isPrefixOf_iff_prefix.mp hsel))
      simp only [hsel, if_true]
      rw [cbMeasure_cons, cbMeasure_cons]
      have h1 := childPathOf_length_lt hd hpne (d := d)
      omega
    · simp only [hsel, if_false, Bool.false_eq_true]
      rw [cbMeasure_cons]
      omega

theorem mapM_congr_option {α β : Type} {f g : α → Option β} :
    ∀ {l : List α}, (∀ a ∈ l, f a = g a) → l.mapM f = l.mapM g := by
  intro l
  induction l with
  | nil => intro _; rfl
  | cons a rest ih =>
    intro h
    rw [List.mapM_cons, List.mapM_cons, h a (by simp), ih (fun x hx => h x (by simp [hx]))]

theorem pull_first_mem {su : SetEnum} {d : Chars} {aps : List Chars} {x : Chars} :
    x ∈ pull_first_name_from_paths su d aps ↔ ∃ p ∈ aps, firstSeg d p = x := by
  rw [pull_first_name_from_paths, su.mem, List.mem_map]

theorem pull_first_src_ne_nil {su : SetEnum} {d : Chars} {aps : List Chars} {x : Chars}
    (h : x ∈ pull_first_name_from_paths su d aps) : aps ≠ [] := by
  intro h0
  subst h0
  rw [pull_first_mem] at h
  simp at h

theorem cbF_fuel (su : SetEnum) {d : Chars} (hd : d ≠ []) (idx : JVal) (tool : Chars) :
    ∀ f1 f2 cp aps, cbMeasure aps < f1 → cbMeasure aps < f2 →
      cbF su d idx tool f1 cp aps = cbF su d idx tool f2 cp aps := by
  intro f1
  induction f1 with
  | zero =>
    intro f2 cp aps h1 _
    exact absurd h1 (by omega)
  | succ f ih =>
    intro f2 cp aps h1 h2
    cases f2 with
    | zero => exact absurd h2 (by omega)
    | succ g =>
      simp only [cbF]
      cases hent : dictGet idx (if tool ≠ [] then tool ++ d ++ cp else cp) with
      | none => rfl
      | some entry =>
        simp only [Option.bind_eq_bind, Option.some_bind]
        cases hct : dictGet entry "type".data with
        | none => rfl
        | some ct =>
          simp only [Option.some_bind]
          by_cases hr : ct = JVal.s "radio".data
          · simp only [hr, if_true]
            cases hpf : pull_first_name_from_paths su d aps with
            | nil => rfl
            | cons a arest =>
              have hmapeq : ((pull_first_name_from_paths su d
                    (get_child_paths d a aps)).filter (fun x => x ≠ [])).mapM
                      (fun n_c_name =>
                        cbF su d idx tool f (cp ++ d ++ a ++ d ++ n_c_name)
                          (get_child_paths d n_c_name (get_child_paths d a aps))) =
                  ((pull_first_name_from_paths su d
                    (get_child_paths d a aps)).filter (fun x => x ≠ [])).mapM
                      (fun n_c_name =>
                        cbF su d idx tool g (cp ++ d ++ a ++ d ++ n_c_name)
                          (get_child_paths d n_c_name (get_child_paths d a aps))) := by
                apply mapM_congr_option
                intro ncn hncn
                rw [List.mem_filter] at hncn
                have hne : ncn ≠ [] := by simpa using hncn.2
                have hsrc : get_child_paths d a aps ≠ [] :=
                  pull_first_src_ne_nil hncn.1
                have hlt := gcp_measure_lt hd hne hsrc (d := d)
                have hle := gcp_measure_le hd a aps
                exact ih g _ _ (by omega) (by omega)
              simp only []
              rw [hmapeq]
          · simp only [hr, if_false]
            by_cases hc : ct = JVal.s "checklist".data
            · simp only [hc, if_true]
              have hmapeq : (pull_first_name_from_paths su d aps).mapM
                    (fun answer_name => do
                      let nested ← ((pull_first_name_from_paths su d
                          (get_child_paths d answer_name aps)).filter
                            (fun x => x ≠ [])).mapM
                          (fun n_c_name =>
                            cbF su d idx tool f (cp ++ d ++ answer_name ++ d ++ n_c_name)
                              (get_child_paths d n_c_name
                                (get_child_paths d answer_name aps)))
                      pure (jobj ([("name".data, JVal.s answer_name)] ++
                        (if nested ≠ [] then
                          [("classifications".data, jarr nested)] else [])))) =
                  (pull_first_name_from_paths su d aps).mapM
                    (fun answer_name => do
                      let nested ← ((pull_first_name_from_paths su d
                          (get_child_paths d answer_name aps)).filter
                            (fun x => x ≠ [])).mapM
                          (fun n_c_name =>
                            cbF su d idx tool g (cp ++ d ++ answer_name ++ d ++ n_c_name)
                              (get_child_paths d n_c_name
                                (get_child_paths d answer_name aps)))
                      pure (jobj ([("name".data, JVal.s answer_name)] ++
                        (if nested ≠ [] then
                          [("classifications".data, jarr nested)] else [])))) := by
                apply mapM_congr_option
                intro answer_name hans
                have hinner : ((pull_first_name_from_paths su d
                      (get_child_paths d answer_name aps)).filter
                        (fun x => x ≠ [])).mapM
                      (fun n_c_name =>
                        cbF su d idx tool f (cp ++ d ++ answer_name ++ d ++ n_c_name)
                          (get_child_paths d n_c_name
                            (get_child_paths d answer_name aps))) =
                    ((pull_first_name_from_paths su d
                      (get_child_paths d answer_name aps)).filter
                        (fun x => x ≠ [])).mapM
                      (fun n_c_name =>
                        cbF su d idx tool g (cp ++ d ++ answer_name ++ d ++ n_c_name)
                          (get_child_paths d n_c_name
                            (get_child_paths d answer_name aps))) := by
                  apply mapM_congr_option
                  intro ncn hncn
                  rw [List.mem_filter] at hncn
                  have hne : ncn ≠ [] := by simpa using hncn.2
                  have hsrc : get_child_paths d answer_name aps ≠ [] :=
                    pull_first_src_ne_nil hncn.1
                  have hlt := gcp_measure_lt hd hne hsrc (d := d)
                  have hle := gcp_measure_le hd answer_name aps
                  exact ih g _ _ (by omega) (by omega)
                rw [hinner]
              exact congrArg (fun z => Option.bind z _) hmapeq
            · simp only [hc, if_false]

theorem classification_builder_eq_cbF (su : SetEnum) {d : Chars} (hd : d ≠ [])
    (idx : JVal) (tool cp : Chars) (aps : List Chars) {fuel : Nat}
    (h : cbMeasure aps < fuel) :
    classification_builder su d idx tool cp aps = cbF su d idx tool fuel cp aps :=
  cbF_fuel su hd idx tool (cbMeasure aps + 1) fuel cp aps (by omega) h

/-! ## Size lemmas for fuel bounds on values -/

theorem jsize_pos (v : JVal) : 1 ≤ jsize v := by
  cases v <;> simp only [jsize] <;> omega

theorem jlsize_nil : jlsize [] = 0 := rfl

theorem jlsize_cons (v : JVal) (l : List JVal) :
    jlsize (v :: l) = jsize v + 1 + jlsize l := by
  simp only [jlsize, List.map_cons, List.sum_cons, List.length_cons]
  omega

theorem dictGet_size {v : JVal} {k : Chars} {w : JVal} (h : dictGet v k = some w) :
    jsize w < jsize v := by
  induction v with
  | objCons k0 v0 tl ih1 ih2 =>
    simp only [dictGet] at h
    by_cases he : k0 = k
    · rw [if_pos he] at h
      cases h
      simp only [jsize]
      omega
    · rw [if_neg he] at h
      have := ih2 h
      simp only [jsize]
      omega
  | s c => simp [dictGet] at h
  | num n => simp [dictGet] at h
  | arrNil => simp [dictGet] at h
  | objNil => simp [dictGet] at h
  | arrCons hd tl ih1 ih2 => simp [dictGet] at h

theorem jitems_size (v : JVal) : jlsize (jitems v) < jsize v := by
  induction v with
  | arrCons hd tl ih1 ih2 =>
    simp only [jitems, jlsize_cons]
    simp only [jsize]
    have : jlsize (jitems tl) < jsize tl := ih2
    omega
  | s c => simp [jitems, jlsize_nil, jsize]
  | num n => simp [jitems, jlsize_nil, jsize]
  | arrNil => simp [jitems, jlsize_nil, jsize]
  | objNil => simp [jitems, jlsize_nil, jsize]
  | objCons k v0 tl ih1 ih2 => simp [jitems, jlsize_nil, jsize]

theorem mem_jlsize {w : JVal} : ∀ {l : List JVal}, w ∈ l → jsize w ≤ jlsize l := by
  intro l
  induction l with
  | nil => intro h; simp at h
  | cons v rest ih =>
    intro h
    rw [jlsize_cons]
    rcases List.mem_cons.mp h with h1 | h2
    · subst h1; omega
    · have := ih h2; omega

theorem mem_jitems_size {v w : JVal} (h : w ∈ jitems v) : jsize w < jsize v :=
  lt_of_le_of_lt (mem_jlsize h) (jitems_size v)

/-! ## Fuel irrelevance for the decoder and the export translation -/

set_option maxHeartbeats 1600000 in
theorem glpF_fuel (divider : Chars) :
    ∀ f1 f2 cls cur, jlsize cls ≤ f1 → jlsize cls ≤ f2 →
      glpF divider f1 cls cur = glpF divider f2 cls cur := by
  intro f1
  induction f1 with
  | zero =>
    intro f2 cls cur h1 _
    cases cls with
    | nil => cases f2 <;> rfl
    | cons c rest =>
      rw [jlsize_cons] at h1
      have := jsize_pos c
      omega
  | succ f ih =>
    intro f2 cls cur h1 h2
    cases cls with
    | nil => cases f2 <;> rfl
    | cons c rest =>
      cases f2 with
      | zero =>
        rw [jlsize_cons] at h2
        have := jsize_pos c
        omega
      | succ g =>
        rw [jlsize_cons] at h1 h2
        have hcf : jsize c ≤ f := by omega
        have hcg : jsize c ≤ g := by omega
        have hrest : jlsize rest ≤ f := by omega
        have hrest2 : jlsize rest ≤ g := by omega
        simp only [glpF]
        cases hnm : dictGet c "name".data with
        | none => rfl
        | some nmv =>
          simp only [Option.bind_eq_bind, Option.some_bind]
          cases hs : asStr nmv with
          | none => rfl
          | some nm =>
            simp only [Option.some_bind]
            -- the checklist-answer item translation changes fuel f → g
            have hmapAns : ∀ (ca : JVal) (np : Chars), jsize ca ≤ f → jsize ca ≤ g →
                ((jitems ca).mapM (fun answer => do
                  let ans ← dictGet answer "name".data >>= asStr
                  let new_path := np ++ divider ++ ans
                  match dictGet answer "classifications".data with
                  | some acv =>
                      if isArr acv then
                        if (jitems acv).length > 0 then
                          glpF divider f (jitems acv) new_path
                        else pure [new_path]
                      else none
                  | none => pure [new_path])) =
                ((jitems ca).mapM (fun answer => do
                  let ans ← dictGet answer "name".data >>= asStr
                  let new_path := np ++ divider ++ ans
                  match dictGet answer "classifications".data with
                  | some acv =>
                      if isArr acv then
                        if (jitems acv).length > 0 then
                          glpF divider g (jitems acv) new_path
                        else pure [new_path]
                      else none
                  | none => pure [new_path])) := by
              intro ca np hcaf hcag
              apply mapM_congr_option
              intro answer hansw
              have hanssz : jsize answer < jsize ca := mem_jitems_size hansw
              cases han : dictGet answer "name".data with
              | none => rfl
              | some anv =>
                simp only [Option.bind_eq_bind, Option.some_bind]
                cases has2 : asStr anv with
                | none => rfl
                | some ans =>
                  simp only [Option.some_bind]
                  cases hac : dictGet answer "classifications".data with
                  | none => rfl
                  | some acv =>
                    have hacsz : jsize acv < jsize answer := dictGet_size hac
                    have hiasz : jlsize (jitems acv) < jsize acv := jitems_size acv
                    simp only []
                    by_cases hia2 : isArr acv
                    · simp only [hia2, if_true]
                      by_cases hlen : (jitems acv).length > 0
                      · simp only [hlen, if_true]
                        exact ih g (jitems acv) _ (by omega) (by omega)
                      · simp only [hlen, if_false]
                    · simp only [hia2, Bool.false_eq_true, if_false, Option.none_bind]
            simp only [Option.pure_def, Option.bind_eq_bind] at hmapAns
            cases htx : dictGet c "text_answer".data with
            | none =>
              simp only [Option.pure_def, Option.some_bind]
              cases hca : dictGet c "checklist_answers".data with
              | some ca =>
                have hcasz : jsize ca < jsize c := dictGet_size hca
                simp only []
                by_cases hia : isArr ca
                · simp only [hia, if_true]
                  rw [hmapAns ca _ (by omega) (by omega)]
                  apply Option.bind_congr
                  intro parts _
                  cases hra : dictGet c "radio_answer".data with
                  | none =>
                    simp only []
                    rw [ih g rest cur hrest hrest2]
                  | some answer =>
                    have hra2 : jsize answer < jsize c := dictGet_size hra
                    simp only []
                    cases han : dictGet answer "name".data with
                    | none => rfl
                    | some anv =>
                      simp only [Option.bind_eq_bind, Option.some_bind]
                      cases has2 : asStr anv with
                      | none => rfl
                      | some ans =>
                        simp only [Option.some_bind]
                        cases hac : dictGet answer "classifications".data with
                        | none =>
                          simp only []
                          rw [ih g rest cur hrest hrest2]
                        | some acv =>
                          have hacsz : jsize acv < jsize answer := dictGet_size hac
                          have hiasz : jlsize (jitems acv) < jsize acv := jitems_size acv
                          simp only []
                          by_cases hia2 : isArr acv
                          · simp only [hia2, if_true]
                            by_cases hlen : (jitems acv).length > 0
                            · simp only [hlen, if_true]
                              rw [ih g (jitems acv) _ (by omega) (by omega),
                                ih g rest cur hrest hrest2]
                            · simp only [hlen, if_false]
                              rw [ih g rest cur hrest hrest2]
                          · simp only [hia2, Bool.false_eq_true, if_false, Option.none_bind]
                · simp only [hia, Bool.false_eq_true, if_false, Option.none_bind]
              | none =>
                simp only [Option.pure_def, Option.some_bind]
                cases hra : dictGet c "radio_answer".data with
                | none =>
                  simp only []
                  rw [ih g rest cur hrest hrest2]
                | some answer =>
                  have hra2 : jsize answer < jsize c := dictGet_size hra
                  simp only []
                  cases han : dictGet answer "name".data with
                  | none => rfl
                  | some anv =>
                    simp only [Option.bind_eq_bind, Option.some_bind]
                    cases has2 : asStr anv with
                    | none => rfl
                    | some ans =>
                      simp only [Option.some_bind]
                      cases hac : dictGet answer "classifications".data with
                      | none =>
                        simp only []
                        rw [ih g rest cur hrest hrest2]
                      | some acv =>
                        have hacsz : jsize acv < jsize answer := dictGet_size hac
                        have hiasz : jlsize (jitems acv) < jsize acv := jitems_size acv
                        simp only []
                        by_cases hia2 : isArr acv
                        · simp only [hia2, if_true]
                          by_cases hlen : (jitems acv).length > 0
                          · simp only [hlen, if_true]
                            rw [ih g (jitems acv) _ (by omega) (by omega),
                              ih g rest cur hrest hrest2]
                          · simp only [hlen, if_false]
                            rw [ih g rest cur hrest hrest2]
                        · simp only [hia2, Bool.false_eq_true, if_false, Option.none_bind]
            | some ta =>
              have htasz : jsize ta < jsize c := dictGet_size htx
              simp only [Option.bind_eq_bind]
              cases hco : dictGet ta "content".data with
              | none => rfl
              | some cv =>
                simp only [Option.some_bind]
                cases hcs : asStr cv with
                | none => rfl
                | some cs =>
                  simp only [Option.pure_def, Option.some_bind]
                  cases hca : dictGet c "checklist_answers".data with
                  | some ca =>
                    have hcasz : jsize ca < jsize c := dictGet_size hca
                    simp only []
                    by_cases hia : isArr ca
                    · simp only [hia, if_true]
                      rw [hmapAns ca _ (by omega) (by omega)]
                      apply Option.bind_congr
                      intro parts _
                      cases hra : dictGet c "radio_answer".data with
                      | none =>
                        simp only []
                        rw [ih g rest cur hrest hrest2]
                      | some answer =>
                        have hra2 : jsize answer < jsize c := dictGet_size hra
                        simp only []
                        cases han : dictGet answer "name".data with
                        | none => rfl
                        | some anv =>
                          simp only [Option.bind_eq_bind, Option.some_bind]
                          cases has2 : asStr anv with
                          | none => rfl
                          | some ans =>
                            simp only [Option.some_bind]
                            cases hac : dictGet answer "classifications".data with
                            | none =>
                              simp only []
                              rw [ih g rest cur hrest hrest2]
                            | some acv =>
                              have hacsz : jsize acv < jsize answer := dictGet_size hac
                              have hiasz : jlsize (jitems acv) < jsize acv := jitems_size acv
                              simp only []
                              by_cases hia2 : isArr acv
                              · simp only [hia2, if_true]
                                by_cases hlen : (jitems acv).length > 0
                                · simp only [hlen, if_true]
                                  rw [ih g (jitems acv) _ (by omega) (by omega),
                                    ih g rest cur hrest hrest2]
                                · simp only [hlen, if_false]
                                  rw [ih g rest cur hrest hrest2]
                              · simp only [hia2, Bool.false_eq_true, if_false, Option.none_bind]
                    · simp only [hia, Bool.false_eq_true, if_false, Option.none_bind]
                  | none =>
                    simp only [Option.pure_def, Option.some_bind]
                    cases hra : dictGet c "radio_answer".data with
                    | none =>
                      simp only []
                      rw [ih g rest cur hrest hrest2]
                    | some answer =>
                      have hra2 : jsize answer < jsize c := dictGet_size hra
                      simp only []
                      cases han : dictGet answer "name".data with
                      | none => rfl
                      | some anv =>
                        simp only [Option.bind_eq_bind, Option.some_bind]
                        cases has2 : asStr anv with
                        | none => rfl
                        | some ans =>
                          simp only [Option.some_bind]
                          cases hac : dictGet answer "classifications".data with
                          | none =>
                            simp only []
                            rw [ih g rest cur hrest hrest2]
                          | some acv =>
                            have hacsz : jsize acv < jsize answer := dictGet_size hac
                            have hiasz : jlsize (jitems acv) < jsize acv := jitems_size acv
                            simp only []
                            by_cases hia2 : isArr acv
                            · simp only [hia2, if_true]
                              by_cases hlen : (jitems acv).length > 0
                              · simp only [hlen, if_true]
                                rw [ih g (jitems acv) _ (by omega) (by omega),
                                  ih g rest cur hrest hrest2]
                              · simp only [hlen, if_false]
                                rw [ih g rest cur hrest hrest2]
                            · simp only [hia2, Bool.false_eq_true, if_false, Option.none_bind]

set_option maxHeartbeats 1600000 in
theorem u2eF_fuel :
    ∀ f1 f2 tag t, jsize t ≤ f1 → jsize t ≤ f2 →
      u2eF f1 tag t = u2eF f2 tag t := by
  intro f1
  induction f1 with
  | zero =>
    intro f2 tag t h1 _
    have := jsize_pos t
    omega
  | succ f ih =>
    intro f2 tag t h1 h2
    cases f2 with
    | zero =>
      have := jsize_pos t
      omega
    | succ g =>
      cases tag with
      | true =>
        simp only [u2eF]
        cases hnv : dictGet t "name".data with
        | none => rfl
        | some nv =>
          simp only [Option.bind_eq_bind, Option.some_bind]
          cases hav : dictGet t "answers".data with
          | some av =>
            have havsz : jsize av < jsize t := dictGet_size hav
            simp only []
            by_cases hia : isArr av
            · simp only [hia, if_true]
              have hm : ((jitems av).mapM (fun a => u2eF f false a)) =
                  ((jitems av).mapM (fun a => u2eF g false a)) := by
                apply mapM_congr_option
                intro a ha
                have := mem_jitems_size ha
                exact ih g false a (by omega) (by omega)
              rw [hm]
            · simp only [hia, Bool.false_eq_true, if_false]
          | none =>
            simp only []
            cases ha : dictGet t "answer".data with
            | none => rfl
            | some a =>
              have hasz : jsize a < jsize t := dictGet_size ha
              cases a with
              | s tc => rfl
              | num n =>
                simp only []
                rw [ih g false (JVal.num n) (by simp only [jsize] at hasz ⊢; omega)
                  (by simp only [jsize] at hasz ⊢; omega)]
              | arrNil =>
                simp only []
                rw [ih g false JVal.arrNil (by simp only [jsize] at hasz ⊢; omega)
                  (by simp only [jsize] at hasz ⊢; omega)]
              | arrCons hd tl =>
                simp only []
                rw [ih g false (JVal.arrCons hd tl) (by omega) (by omega)]
              | objNil =>
                simp only []
                rw [ih g false JVal.objNil (by simp only [jsize] at hasz ⊢; omega)
                  (by simp only [jsize] at hasz ⊢; omega)]
              | objCons k v tl =>
                simp only []
                rw [ih g false (JVal.objCons k v tl) (by omega) (by omega)]
      | false =>
        simp only [u2eF]
        cases hnv : dictGet t "name".data with
        | none => rfl
        | some nv =>
          simp only [Option.bind_eq_bind, Option.some_bind]
          cases hcv : dictGet t "classifications".data with
          | some cv =>
            have hcvsz : jsize cv < jsize t := dictGet_size hcv
            simp only []
            by_cases hia : isArr cv
            · simp only [hia, if_true]
              have hm : ((jitems cv).mapM (fun c => u2eF f true c)) =
                  ((jitems cv).mapM (fun c => u2eF g true c)) := by
                apply mapM_congr_option
                intro c hc
                have := mem_jitems_size hc
                exact ih g true c (by omega) (by omega)
              rw [hm]
            · simp only [hia, Bool.false_eq_true, if_false]
          | none => rfl

set_option maxHeartbeats 1600000 in
theorem mlF_fuel (divider : Chars) (invert detailed : Bool) :
    ∀ f1 f2 fd layer parent e, jlsize layer ≤ f1 → jlsize layer ≤ f2 →
      mlF divider invert detailed f1 fd layer parent e =
        mlF divider invert detailed f2 fd layer parent e := by
  intro f1
  induction f1 with
  | zero =>
    intro f2 fd layer parent e h1 _
    cases layer with
    | nil => cases f2 <;> rfl
    | cons node rest =>
      rw [jlsize_cons] at h1
      have := jsize_pos node
      omega
  | succ f ih =>
    intro f2 fd layer parent e h1 h2
    cases layer with
    | nil => cases f2 <;> rfl
    | cons node rest =>
      cases f2 with
      | zero =>
        rw [jlsize_cons] at h2
        have := jsize_pos node
        omega
      | succ g =>
        rw [jlsize_cons] at h1 h2
        have hnf : jsize node ≤ f := by omega
        have hng : jsize node ≤ g := by omega
        have hrf : jlsize rest ≤ f := by omega
        have hrg : jlsize rest ≤ g := by omega
        simp only [mlF]
        -- a common continuation: once the node info and entry are fixed,
        -- the only fuel-dependent parts are the recursion into the child
        -- layer and into the rest of the current layer
        have hfin : ∀ (nl : JVal) (fd1 : JVal) (np : Chars), jsize nl ≤ f → jsize nl ≤ g →
            (if jTruthy nl then
              (mlF divider invert detailed f fd1 (jitems nl) np (e + 1)).bind fun y =>
                mlF divider invert detailed f y.1 rest parent y.2
            else mlF divider invert detailed f fd1 rest parent (e + 1)) =
            (if jTruthy nl then
              (mlF divider invert detailed g fd1 (jitems nl) np (e + 1)).bind fun y =>
                mlF divider invert detailed g y.1 rest parent y.2
            else mlF divider invert detailed g fd1 rest parent (e + 1)) := by
          intro nl fd1 np hszf hszg
          have hnlsz : jlsize (jitems nl) < jsize nl := jitems_size nl
          by_cases htr : jTruthy nl
          · simp only [htr, if_true]
            rw [ih g fd1 (jitems nl) np (e + 1) (by omega) (by omega)]
            apply Option.bind_congr
            intro step _
            exact ih g step.1 rest parent step.2 hrf hrg
          · simp only [htr, Bool.false_eq_true, if_false]
            exact ih g fd1 rest parent (e + 1) hrf hrg
        cases htool : dictGet node "tool".data with
        | some tv =>
          have htsz : jsize tv < jsize node := dictGet_size htool
          simp only []
          cases hname : dictGet node "name".data with
          | none => rfl
          | some namev =>
            simp only [Option.bind_eq_bind, Option.some_bind]
            cases hnn : asStr namev with
            | none => rfl
            | some node_name =>
              simp only [Option.some_bind]
              cases hcl : dictGet node "classifications".data with
              | none => rfl
              | some next_layer =>
                have hnlsz2 : jsize next_layer < jsize node := dictGet_size hcl
                simp only [Option.some_bind]
                cases hty : asStr tv with
                | none => rfl
                | some node_type =>
                  simp only [Option.some_bind, Option.pure_def]
                  cases hfs : dictGet node "featureSchemaId".data with
                  | none => rfl
                  | some fsv =>
                    simp only [Option.some_bind]
                    cases hfss : asStr fsv with
                    | none => rfl
                    | some fsid =>
                      simp only [Option.some_bind]
                      exact hfin next_layer _ _ (by omega) (by omega)
        | none =>
          simp only []
          cases hins : dictGet node "instructions".data with
          | some iv =>
            have hisz : jsize iv < jsize node := dictGet_size hins
            simp only []
            cases hin : asStr iv with
            | none => rfl
            | some node_name =>
              simp only [Option.bind_eq_bind, Option.some_bind]
              cases hop : dictGet node "options".data with
              | none => rfl
              | some next_layer =>
                have hnlsz2 : jsize next_layer < jsize node := dictGet_size hop
                simp only [Option.some_bind]
                cases htyv : dictGet node "type".data with
                | none => rfl
                | some tyv =>
                  simp only [Option.some_bind]
                  cases hty : asStr tyv with
                  | none => rfl
                  | some node_type =>
                    simp only [Option.some_bind, Option.pure_def]
                    cases hfs : dictGet node "featureSchemaId".data with
                    | none => rfl
                    | some fsv =>
                      simp only [Option.some_bind]
                      cases hfss : asStr fsv with
                      | none => rfl
                      | some fsid =>
                        simp only [Option.some_bind]
                        exact hfin next_layer _ _ (by omega) (by omega)
          | none =>
            simp only []
            cases hlab : dictGet node "label".data with
            | none => rfl
            | some lv =>
              simp only [Option.bind_eq_bind, Option.some_bind]
              cases hls : asStr lv with
              | none => rfl
              | some node_name =>
                simp only [Option.some_bind, Option.pure_def]
                cases hfs : dictGet node "featureSchemaId".data with
                | none => rfl
                | some fsv =>
                  simp only [Option.some_bind]
                  cases hfss : asStr fsv with
                  | none => rfl
                  | some fsid =>
                    simp only [Option.some_bind]
                    cases hop : dictGet node "options".data with
                    | some ov =>
                      have hovsz : jsize ov < jsize node := dictGet_size hop
                      simp only [Option.getD_some]
                      exact hfin ov _ _ (by omega) (by omega)
                    | none =>
                      simp only [Option.getD_none]
                      have hnp := jsize_pos node
                      have hj : jsize (jarr []) ≤ f ∧ jsize (jarr []) ≤ g := by
                        simp only [jarr, jsize]
                        omega
                      exact hfin (jarr []) _ _ hj.1 hj.2

/-! ## Wrapper equalities for the fuelled functions -/

theorem get_leaf_paths_eq_glpF (divider : Chars) (cls : List JVal) (cur : Chars)
    {fuel : Nat} (h : jlsize cls ≤ fuel) :
    get_leaf_paths divider cls cur = glpF divider fuel cls cur :=
  glpF_fuel divider (jlsize cls) fuel cls cur le_rfl h

theorem uploadToExport_eq_u2eF (t : JVal) {fuel : Nat} (h : jsize t ≤ fuel) :
    uploadToExport t = u2eF fuel true t :=
  u2eF_fuel (jsize t) fuel true t le_rfl h

theorem map_layer_eq_mlF (divider : Chars) (invert detailed : Bool) (fd : JVal)
    (layer : List JVal) (parent : Chars) (e : Nat) {fuel : Nat}
    (h : jlsize layer ≤ fuel) :
    map_layer divider invert detailed fd layer parent e =
      mlF divider invert detailed fuel fd layer parent e :=
  mlF_fuel divider invert detailed (jlsize layer) fuel fd layer parent e le_rfl h

/-! ## Helpers about set enumerations and Option -/

theorem setEnum_singleton (su : SetEnum) {l : List Chars} {x : Chars}
    (hne : l ≠ []) (hall : ∀ y ∈ l, y = x) : su.fn l = [x] := by
  have hx : x ∈ su.fn l := by
    rw [su.mem]
    cases l with
    | nil => exact absurd rfl hne
    | cons a rest =>
      have h2 := hall a (by simp)
      rw [← h2]
      simp
  have hsub : ∀ y ∈ su.fn l, y = x := by
    intro y hy
    exact hall y ((su.mem l y).mp hy)
  have hnd := su.nodup l
  cases hfe : su.fn l with
  | nil => rw [hfe] at hx; simp at hx
  | cons a rest =>
    rw [hfe] at hsub hnd
    have ha : a = x := hsub a (by simp)
    cases rest with
    | nil => rw [ha]
    | cons b rest2 =>
      have hb : b = x := hsub b (by simp)
      rw [List.nodup_cons] at hnd
      exact absurd (by rw [ha, hb]; simp : a ∈ b :: rest2) hnd.1

theorem mapM_eq_some_map {α β : Type} {f : α → Option β} {g : α → β} :
    ∀ {l : List α}, (∀ a ∈ l, f a = some (g a)) → l.mapM f = some (l.map g) := by
  intro l
  induction l with
  | nil => intro _; rfl
  | cons a rest ih =>
    intro h
    rw [List.mapM_cons, h a (by simp), ih (fun x hx => h x (by simp [hx]))]
    rfl

/-! ## Claim C6: boundary handling of `get_child_paths` -/

/-- C6 (code evaluated at the failing input): `get_child_paths` selects by
a raw `startswith` test, so for `first = "color"` the sibling path
`"colors///x"` IS selected (and stripped to `"x"`), contradicting the
claimed divider-boundary behaviour; the claim (and §9 of the spec, which
flags exactly this) describes the intended boundary-checked matching. -/
theorem get_child_paths_no_boundary_check :
    get_child_paths div3 "color".data ["colors///x".data] = ["x".data] ∧
      ["x".data] ≠ ([] : List Chars) := by
  constructor
  · decide
  · decide

/-- The default divider is not the empty string (used pervasively). -/
theorem div3_ne_nil : div3 ≠ [] := by decide

/-! ## Claim C9: path codec laws -/

/-- C9: for a multi-segment path `p` (its split has at least two
segments), `get_child_paths(first_segment(p), [p])` is the one-element
list holding `p` with its first segment and the following divider
stripped (and `p` decomposes as that first segment ++ divider ++ child);
for a single-segment path it is `[""]`. -/
theorem get_child_paths_firstSeg (p : Chars) :
    (2 ≤ (pySplit div3 p).length →
      get_child_paths div3 (firstSeg div3 p) [p] =
          [pyJoin div3 ((pySplit div3 p).drop 1)] ∧
        p = firstSeg div3 p ++ div3 ++ pyJoin div3 ((pySplit div3 p).drop 1)) ∧
    ((pySplit div3 p).length = 1 →
      get_child_paths div3 (firstSeg div3 p) [p] = [[]]) := by
  have hsel : (firstSeg div3 p).isPrefixOf p = true :=
    List.isPrefixOf_iff_prefix.mpr (firstSeg_front div3 p)
  have hgcp : get_child_paths div3 (firstSeg div3 p) [p] = [childPathOf div3 p] := by
    simp [get_child_paths, List.filterMap, hsel]
  constructor
  · intro hmulti
    have hdrop : (pySplit div3 p).drop 1 ≠ [] := by
      intro h0
      have := congrArg List.length h0
      rw [List.length_drop] at this
      simp at this
      omega
    constructor
    · rw [hgcp, childPathOf_eq div3_ne_nil]
    · exact split_decomp hdrop
  · intro hsingle
    have hdrop : (pySplit div3 p).drop 1 = [] := by
      apply List.eq_nil_of_length_eq_zero
      rw [List.length_drop, hsingle]
    rw [hgcp, childPathOf_eq div3_ne_nil, hdrop]
    rfl

/-- C9 witness: the law applied to the multi-segment path `"a///b"` and
to the single-segment path `"a"`. -/
theorem get_child_paths_firstSeg_witness :
    (get_child_paths div3 (firstSeg div3 "a///b".data) ["a///b".data] =
        [pyJoin div3 ((pySplit div3 "a///b".data).drop 1)] ∧
      "a///b".data = firstSeg div3 "a///b".data ++ div3 ++
        pyJoin div3 ((pySplit div3 "a///b".data).drop 1)) ∧
    get_child_paths div3 (firstSeg div3 "a".data) ["a".data] = [[]] :=
  ⟨(get_child_paths_firstSeg "a///b".data).1 (by decide),
   (get_child_paths_firstSeg "a".data).2 (by decide)⟩

/-! ## Claim C7: missing index entry fails loudly -/

/-- C7: encoding with a `top_level_name` absent from the ontology index
fails with the `KeyError` of the very first lookup
(`ontology_index[top_level_name]`), before any output object is built:
the result is `none`, never a partial or default object. -/
theorem ndjson_builder_missing_entry (su : SetEnum) (maskB : JVal → JVal → JVal)
    (u top_level_name : Chars) (annot_input : List JVal) (ontology_index : JVal)
    (confidence : Bool) (mask_method d : Chars)
    (h : dictGet ontology_index top_level_name = none) :
    ndjson_builder su maskB u top_level_name annot_input ontology_index
      confidence mask_method d = none := by
  unfold ndjson_builder
  rw [h]
  rfl

/-- C7 witness: the empty index at `top_level_name = "car"`. -/
theorem ndjson_builder_missing_entry_witness :
    dictGet (jobj []) "car".data = none ∧
      ndjson_builder pySet (fun _ c => c) "u".data "car".data [] (jobj [])
        false "url".data div3 = none :=
  ⟨by decide,
   ndjson_builder_missing_entry pySet (fun _ c => c) "u".data "car".data [] (jobj [])
     false "url".data div3 (by decide)⟩

set_option maxHeartbeats 2000000 in
/-- Reading `ontology_index['project_type']` is unconditional: if that key
is missing, `ndjson_builder` fails for every input (used for C10). -/
theorem ndjson_builder_missing_project_type (su : SetEnum)
    (maskB : JVal → JVal → JVal) (u top_level_name : Chars)
    (annot_input : List JVal) (ontology_index : JVal) (confidence : Bool)
    (mask_method d : Chars)
    (h : dictGet ontology_index "project_type".data = none) :
    ndjson_builder su maskB u top_level_name annot_input ontology_index
      confidence mask_method d = none := by
  unfold ndjson_builder
  cases h1 : dictGet ontology_index top_level_name with
  | none => rfl
  | some tEntry =>
    simp only [Option.bind_eq_bind, Option.some_bind]
    cases h2 : dictGet tEntry "type".data with
    | none => rfl
    | some tType =>
      simp only [Option.some_bind]
      rw [h]
      rfl

/-! ## Claim C3: top-level text classification -/

/-- C3 counterexample: with an ontology index mapping `"comment"` to type
`"text"` (and the `project_type` entry every encoding needs), encoding the
value `["comment///hello world"]` produces `answer = "comment///hello
world"` — the full un-stripped path — not the claimed `"hello world"`. -/
theorem ndjson_builder_text_unstripped_cex :
    (ndjson_builder pySet (fun _ c => c) "u0".data "comment".data
        [JVal.s "comment///hello world".data]
        (jobj [("comment".data, jobj [("type".data, JVal.s "text".data)]),
               ("project_type".data, JVal.s "Image".data)])
        false "url".data div3).bind (fun r => dictGet r "answer".data) =
      some (JVal.s "comment///hello world".data) ∧
    some (JVal.s "comment///hello world".data) ≠
      some (JVal.s "hello world".data) := by
  constructor
  · decide
  · decide

/-- C3 as amended: the top-level classification branch passes
`annotation_input[0]` to the classification builder without stripping the
classification-name prefix, so the emitted `answer` is the literal first
element of the value: `{uuid, name: "comment", answer: "comment///hello
world"}` for the claim's input, and the claimed `{.., answer: "hello
world"}` results exactly when the input value is pre-stripped to
`["hello world"]` (the form `flatten_label` produces). -/
theorem ndjson_builder_text_answer_literal (su : SetEnum) (u : Chars) :
    ndjson_builder su (fun _ c => c) u "comment".data
        [JVal.s "comment///hello world".data]
        (jobj [("comment".data, jobj [("type".data, JVal.s "text".data)]),
               ("project_type".data, JVal.s "Image".data)])
        false "url".data div3 =
      some (jobj [("uuid".data, JVal.s u), ("name".data, JVal.s "comment".data),
        ("answer".data, JVal.s "comment///hello world".data)]) ∧
    ndjson_builder su (fun _ c => c) u "comment".data
        [JVal.s "hello world".data]
        (jobj [("comment".data, jobj [("type".data, JVal.s "text".data)]),
               ("project_type".data, JVal.s "Image".data)])
        false "url".data div3 =
      some (jobj [("uuid".data, JVal.s u), ("name".data, JVal.s "comment".data),
        ("answer".data, JVal.s "hello world".data)]) := by
  constructor
  · rfl
  · rfl

/-! ## Claim C8: named-entity encoding -/

/-- C8 (code evaluated at the failing input): the named-entity branch
executes `ndjson['data']["location"] = {...}` on a dict whose keys are
only `uuid` and `name`, so the `ndjson['data']` lookup raises `KeyError`
unconditionally and no `{uuid, name, location: {start, end}}` object is
ever returned: the encoder yields `none` on a well-formed named-entity
input in a non-geospatial project. -/
theorem ndjson_builder_named_entity_keyerror :
    ndjson_builder pySet (fun _ c => c) "u0".data "ner".data
      [jarr [JVal.num 10, JVal.num 20], jarr []]
      (jobj [("ner".data, jobj [("type".data, JVal.s "named-entity".data)]),
             ("project_type".data, JVal.s "Image".data)])
      false "url".data div3 = none := by
  decide

/-! ## Claim C4: checklist multiplicity -/

set_option maxHeartbeats 1600000 in
/-- C4: encoding a checklist classification named `"color"` whose answer
name-paths are `["color///red", "color///blue"]` (the builder receives
them stripped of the classification name, as `ndjson_builder` strips
them) yields an `answers` list whose members are exactly
`{name: "red"}` and `{name: "blue"}` — a duplicate-free list compared as
a set, the enumeration order being unspecified — and the result carries
no singular `answer` key. -/
theorem classification_builder_checklist_multiplicity (su : SetEnum) (idx : JVal)
    (hty : (dictGet idx "color".data).bind (fun e => dictGet e "type".data) =
      some (JVal.s "checklist".data)) :
    ∃ answers : List JVal,
      classification_builder su div3 idx [] "color".data
          (get_child_paths div3 "color".data
            ["color///red".data, "color///blue".data]) =
        some (jobj [("name".data, JVal.s "color".data),
                    ("answers".data, jarr answers)]) ∧
      answers.Nodup ∧
      (∀ x, x ∈ answers ↔ (x = jobj [("name".data, JVal.s "red".data)] ∨
        x = jobj [("name".data, JVal.s "blue".data)])) ∧
      dictGet (jobj [("name".data, JVal.s "color".data),
        ("answers".data, jarr answers)]) "answer".data = none := by
  obtain ⟨e, he, hte⟩ := Option.bind_eq_some.mp hty
  have hg : get_child_paths div3 "color".data
      ["color///red".data, "color///blue".data] = ["red".data, "blue".data] := by
    decide
  rw [hg]
  have hL : (["red".data, "blue".data].map (fun p => firstSeg div3 p)) =
      ["red".data, "blue".data] := by decide
  have hstep : ∀ a ∈ su.fn ["red".data, "blue".data],
      (do
        let nested ← ((pull_first_name_from_paths su div3
            (get_child_paths div3 a ["red".data, "blue".data])).filter
              (fun x => x ≠ [])).mapM
            (fun n_c_name =>
              cbF su div3 idx [] 9
                ("color".data ++ div3 ++ a ++ div3 ++ n_c_name)
                (get_child_paths div3 n_c_name
                  (get_child_paths div3 a ["red".data, "blue".data])))
        pure (jobj ([("name".data, JVal.s a)] ++
          (if nested ≠ [] then [("classifications".data, jarr nested)] else [])))) =
      some (jobj [("name".data, JVal.s a)]) := by
    intro a ha
    have ha2 : a = "red".data ∨ a = "blue".data := by
      have := (su.mem _ a).mp ha
      simpa using this
    have hchild : get_child_paths div3 a ["red".data, "blue".data] = [[]] := by
      rcases ha2 with h | h <;> subst h <;> decide
    rw [hchild]
    have hsing : pull_first_name_from_paths su div3 [[]] = [[]] := by
      rw [pull_first_name_from_paths]
      exact setEnum_singleton su (by simp) (by simp [firstSeg]; decide)
    rw [hsing]
    rfl
  have hmapm := mapM_eq_some_map hstep
  refine ⟨(su.fn ["red".data, "blue".data]).map
    (fun a => jobj [("name".data, JVal.s a)]), ?_, ?_, ?_, ?_⟩
  · rw [classification_builder]
    show cbF su div3 idx [] (9 + 1) "color".data ["red".data, "blue".data] = _
    rw [cbF]
    rw [if_neg (by simp : ¬(([] : Chars) ≠ []))]
    rw [he]
    simp only [Option.bind_eq_bind, Option.some_bind]
    rw [hte]
    simp only [Option.some_bind]
    rw [if_neg (by decide : ¬(JVal.s "checklist".data = JVal.s "radio".data))]
    simp only [if_true]
    rw [pull_first_name_from_paths, hL]
    simp only [Option.bind_eq_bind, Option.pure_def, Option.some_bind] at hmapm ⊢
    rw [hmapm]
    rfl
  · exact List.Nodup.map
      (fun a b hab => by
        simpa [jobj] using hab)
      (su.nodup _)
  · intro x
    rw [List.mem_map]
    constructor
    · rintro ⟨a, ha, rfl⟩
      have := (su.mem _ a).mp ha
      simp at this
      rcases this with h | h <;> subst h <;> simp
    · rintro (rfl | rfl)
      · exact ⟨"red".data, (su.mem _ _).mpr (by simp), rfl⟩
      · exact ⟨"blue".data, (su.mem _ _).mpr (by simp), rfl⟩
  · rfl

/-- C4 witness: the theorem applied at the `pySet` enumeration and the
two-entry index, with the hypothesis discharged by evaluation. -/
theorem classification_builder_checklist_multiplicity_witness :
    (dictGet (jobj [("color".data, jobj [("type".data, JVal.s "checklist".data)])])
        "color".data).bind (fun e => dictGet e "type".data) =
      some (JVal.s "checklist".data) ∧
    ∃ answers : List JVal,
      classification_builder pySet div3
          (jobj [("color".data, jobj [("type".data, JVal.s "checklist".data)])])
          [] "color".data
          (get_child_paths div3 "color".data
            ["color///red".data, "color///blue".data]) =
        some (jobj [("name".data, JVal.s "color".data),
                    ("answers".data, jarr answers)]) ∧
      answers.Nodup ∧
      (∀ x, x ∈ answers ↔ (x = jobj [("name".data, JVal.s "red".data)] ∨
        x = jobj [("name".data, JVal.s "blue".data)])) ∧
      dictGet (jobj [("name".data, JVal.s "color".data),
        ("answers".data, jarr answers)]) "answer".data = none :=
  ⟨by decide,
   classification_builder_checklist_multiplicity pySet
     (jobj [("color".data, jobj [("type".data, JVal.s "checklist".data)])])
     (by decide)⟩

/-! ## Claim C5: radio exclusivity -/

/-- C5 counterexample: `answer_name` is `pull_first_name_from_paths(...)[0]`,
the head of a `list(set(...))` enumeration whose order CPython does not
specify.  Under the legitimate enumeration `revSet`, encoding a radio with
answer paths `["a", "b"]` (two distinct first segments, first-seen order
`"a"` first) emits the single answer named `"b"` — not the first unique
first-segment `"a"` the claim promises. -/
theorem classification_builder_radio_not_first_cex :
    classification_builder revSet div3
        (jobj [("c".data, jobj [("type".data, JVal.s "radio".data)])])
        [] "c".data ["a".data, "b".data] =
      some (jobj [("name".data, JVal.s "c".data),
        ("answer".data, jobj [("name".data, JVal.s "b".data)])]) ∧
    "b".data ≠ "a".data := by
  constructor
  · decide
  · decide

set_option maxHeartbeats 1600000 in
/-- C5 as amended: for every radio classification encoding that returns a
result, the output carries exactly one `answer` object, whose name is ONE
of the unique first segments of the answer paths (which one is
unspecified, being the head of an unordered set enumeration); multiple
`answer` objects are never emitted and no `answers` list is produced. -/
theorem classification_builder_radio_exclusive (su : SetEnum) (idx entry : JVal)
    (tool cp : Chars) (aps : List Chars) (r : JVal)
    (hent : dictGet idx (if tool ≠ [] then tool ++ div3 ++ cp else cp) = some entry)
    (hty : dictGet entry "type".data = some (JVal.s "radio".data))
    (hr : classification_builder su div3 idx tool cp aps = some r) :
    ∃ answer_name rest2,
      answer_name ∈ aps.map (fun p => firstSeg div3 p) ∧
      dictGet r "answer".data =
        some (JVal.objCons "name".data (JVal.s answer_name) rest2) ∧
      dictGet r "answers".data = none := by
  rw [classification_builder, cbF] at hr
  rw [hent] at hr
  simp only [Option.bind_eq_bind, Option.some_bind] at hr
  rw [hty] at hr
  simp only [Option.some_bind, if_true] at hr
  cases hpf : pull_first_name_from_paths su div3 aps with
  | nil => rw [hpf] at hr; simp at hr
  | cons a tail =>
    rw [hpf] at hr
    simp only [] at hr
    cases hnest : ((pull_first_name_from_paths su div3
        (get_child_paths div3 a aps)).filter (fun x => x ≠ [])).mapM
          (fun n_c_name =>
            cbF su div3 idx tool (cbMeasure aps)
              (cp ++ div3 ++ a ++ div3 ++ n_c_name)
              (get_child_paths div3 n_c_name (get_child_paths div3 a aps))) with
    | none =>
      rw [hnest] at hr
      simp at hr
    | some nested =>
      rw [hnest] at hr
      simp only [Option.some_bind, Option.pure_def, Option.some.injEq] at hr
      refine ⟨a, jobj (if nested ≠ [] then
        [("classifications".data, jarr nested)] else []), ?_, ?_, ?_⟩
      · have ha : a ∈ pull_first_name_from_paths su div3 aps := by
          rw [hpf]; simp
        rw [pull_first_name_from_paths, su.mem] at ha
        simpa using ha
      · rw [← hr]
        rfl
      · rw [← hr]
        rfl

/-- C5 witness for the amended theorem: the `pySet` enumeration on the
counterexample's radio input. -/
theorem classification_builder_radio_exclusive_witness :
    dictGet (jobj [("c".data, jobj [("type".data, JVal.s "radio".data)])])
        (if ([] : Chars) ≠ [] then [] ++ div3 ++ "c".data else "c".data) =
      some (jobj [("type".data, JVal.s "radio".data)]) ∧
    dictGet (jobj [("type".data, JVal.s "radio".data)]) "type".data =
      some (JVal.s "radio".data) ∧
    classification_builder pySet div3
        (jobj [("c".data, jobj [("type".data, JVal.s "radio".data)])])
        [] "c".data ["a".data, "b".data] =
      some (jobj [("name".data, JVal.s "c".data),
        ("answer".data, jobj [("name".data, JVal.s "a".data)])]) ∧
    ∃ answer_name rest2,
      answer_name ∈ (["a".data, "b".data].map (fun p => firstSeg div3 p)) ∧
      dictGet (jobj [("name".data, JVal.s "c".data),
          ("answer".data, jobj [("name".data, JVal.s "a".data)])]) "answer".data =
        some (JVal.objCons "name".data (JVal.s answer_name) rest2) ∧
      dictGet (jobj [("name".data, JVal.s "c".data),
          ("answer".data, jobj [("name".data, JVal.s "a".data)])]) "answers".data =
        none :=
  ⟨by decide, by decide, by decide,
   classification_builder_radio_exclusive pySet
     (jobj [("c".data, jobj [("type".data, JVal.s "radio".data)])])
     (jobj [("type".data, JVal.s "radio".data)]) [] "c".data
     ["a".data, "b".data]
     (jobj [("name".data, JVal.s "c".data),
       ("answer".data, jobj [("name".data, JVal.s "a".data)])])
     (by decide) (by decide) (by decide)⟩

/-! ## Claim C10: the index builder and the `project_type` key -/

theorem dictKeys_dictSet {v : JVal} {k : Chars} {nv : JVal} :
    ∀ k0 ∈ dictKeys (dictSet v k nv), k0 ∈ dictKeys v ∨ k0 = k := by
  induction v with
  | objCons k1 v1 tl ih1 ih2 =>
    intro k0 h0
    simp only [dictSet] at h0
    by_cases he : k1 = k
    · rw [if_pos he] at h0
      simp only [dictKeys, jentries, List.map_cons, List.mem_cons] at h0 ⊢
      rcases h0 with h | h
      · exact Or.inl (Or.inl h)
      · exact Or.inl (Or.inr h)
    · rw [if_neg he] at h0
      simp only [dictKeys, jentries, List.map_cons, List.mem_cons] at h0 ⊢
      rcases h0 with h | h
      · exact Or.inl (Or.inl h)
      · rcases ih2 k0 h with hh | hh
        · exact Or.inl (Or.inr hh)
        · exact Or.inr hh
  | objNil =>
    intro k0 h0
    simp only [dictSet, dictKeys, jentries, List.map_cons, List.map_nil,
      List.mem_cons] at h0
    simp only [dictKeys, jentries, List.map_nil]
    rcases h0 with h | h
    · exact Or.inr h
    · simp at h
  | s c => intro k0 h0; exact Or.inl h0
  | num n => intro k0 h0; exact Or.inl h0
  | arrNil => intro k0 h0; exact Or.inl h0
  | arrCons hd tl ih1 ih2 => intro k0 h0; exact Or.inl h0

theorem slash_mem_parent_path (parent nn : Chars) : '/' ∈ parent ++ div3 ++ nn := by
  have h : '/' ∈ div3 := by decide
  simp [List.mem_append, h]

theorem ne_pt_of_slash {key : Chars} (h : '/' ∈ key) :
    key ≠ "project_type".data := by
  intro he
  subst he
  exact absurd h (by decide)

set_option maxHeartbeats 3200000 in
theorem mlF_keys_pt (detailed : Bool) :
    ∀ fuel layer fd parent e fd2 e2,
      mlF div3 true detailed fuel fd layer parent e = some (fd2, e2) →
      (∀ k ∈ dictKeys fd, k ≠ "project_type".data) →
      (parent ≠ [] ∨ ∀ node ∈ layer, ∀ nm, nodeNameOf node = some nm →
          nm ≠ "project_type".data ∧ nm ≠ []) →
      ∀ k ∈ dictKeys fd2, k ≠ "project_type".data := by
  intro fuel
  induction fuel with
  | zero =>
    intro layer fd parent e fd2 e2 hr hfd _
    cases layer with
    | nil =>
      simp only [mlF, Option.some.injEq, Prod.mk.injEq] at hr
      rw [← hr.1]
      exact hfd
    | cons node rest => simp [mlF] at hr
  | succ f ih =>
    intro layer fd parent e fd2 e2 hr hfd hpar
    cases layer with
    | nil =>
      simp only [mlF, Option.some.injEq, Prod.mk.injEq] at hr
      rw [← hr.1]
      exact hfd
    | cons node rest =>
      rw [mlF] at hr
      -- a uniform finishing move once the node info is extracted
      have hfin : ∀ (nn : Chars) (nl : JVal) (val : JVal),
          nodeNameOf node = some nn →
          ((if jTruthy nl then
              (mlF div3 true detailed f
                (dictSet fd (if parent ≠ [] then parent ++ div3 ++ nn else nn) val)
                (jitems nl) (if parent ≠ [] then parent ++ div3 ++ nn else nn)
                (e + 1)).bind fun y =>
                mlF div3 true detailed f y.1 rest parent y.2
            else
              mlF div3 true detailed f
                (dictSet fd (if parent ≠ [] then parent ++ div3 ++ nn else nn) val)
                rest parent (e + 1)) = some (fd2, e2)) →
          ∀ k ∈ dictKeys fd2, k ≠ "project_type".data := by
        intro nn nl val hnn hrun
        have hkey : (if parent ≠ [] then parent ++ div3 ++ nn else nn) ≠
            "project_type".data := by
          by_cases hp : parent ≠ []
          · rw [if_pos hp]
            exact ne_pt_of_slash (slash_mem_parent_path parent nn)
          · rw [if_neg hp]
            rcases hpar with hpl | hpt
            · exact absurd hpl hp
            · exact (hpt node (by simp) nn hnn).1
        have hfd1 : ∀ k ∈ dictKeys
            (dictSet fd (if parent ≠ [] then parent ++ div3 ++ nn else nn) val),
            k ≠ "project_type".data := by
          intro k hk
          rcases dictKeys_dictSet k hk with h | h
          · exact hfd k h
          · rw [h]; exact hkey
        have hnp : (if parent ≠ [] then parent ++ div3 ++ nn else nn) ≠ [] ∨
            False := by
          by_cases hp : parent ≠ []
          · rw [if_pos hp]
            left
            intro h0
            have := slash_mem_parent_path parent nn
            rw [h0] at this
            simp at this
          · rw [if_neg hp]
            rcases hpar with hpl | hpt
            · exact absurd hpl hp
            · exact Or.inl (hpt node (by simp) nn hnn).2
        have hrest : parent ≠ [] ∨ ∀ node2 ∈ rest, ∀ nm, nodeNameOf node2 = some nm →
            nm ≠ "project_type".data ∧ nm ≠ [] := by
          rcases hpar with hpl | hpt
          · exact Or.inl hpl
          · exact Or.inr (fun node2 h2 nm hm => hpt node2 (by simp [h2]) nm hm)
        by_cases htr : jTruthy nl
        · rw [if_pos htr] at hrun
          obtain ⟨⟨fdm, em⟩, hy1, hy2⟩ := Option.bind_eq_some.mp hrun
          have hmid := ih (jitems nl)
            (dictSet fd (if parent ≠ [] then parent ++ div3 ++ nn else nn) val)
            (if parent ≠ [] then parent ++ div3 ++ nn else nn) (e + 1) fdm em hy1
            hfd1 (Or.inl (hnp.resolve_right (fun h => h)))
          exact ih rest fdm parent em fd2 e2 hy2 hmid hrest
        · rw [if_neg htr] at hrun
          exact ih rest _ parent (e + 1) fd2 e2 hrun hfd1 hrest
      cases htool : dictGet node "tool".data with
      | some tv =>
        rw [htool] at hr
        simp only [] at hr
        cases hname : dictGet node "name".data with
        | none => rw [hname] at hr; simp at hr
        | some nv =>
          rw [hname] at hr
          simp only [Option.bind_eq_bind, Option.some_bind] at hr
          cases hstr : asStr nv with
          | none => rw [hstr] at hr; simp at hr
          | some nn =>
            rw [hstr] at hr
            simp only [Option.some_bind] at hr
            cases hcl : dictGet node "classifications".data with
            | none => rw [hcl] at hr; simp at hr
            | some nl =>
              rw [hcl] at hr
              simp only [Option.some_bind] at hr
              cases hty : asStr tv with
              | none => rw [hty] at hr; simp at hr
              | some node_type =>
                rw [hty] at hr
                simp only [Option.some_bind, Option.pure_def] at hr
                cases hfs : dictGet node "featureSchemaId".data with
                | none => rw [hfs] at hr; simp at hr
                | some fsv =>
                  rw [hfs] at hr
                  simp only [Option.some_bind] at hr
                  cases hfss : asStr fsv with
                  | none => rw [hfss] at hr; simp at hr
                  | some fsid =>
                    rw [hfss] at hr
                    simp only [Option.some_bind] at hr
                    refine hfin nn nl _ ?_ hr
                    rw [nodeNameOf, htool, hname]
                    simpa using hstr
      | none =>
        rw [htool] at hr
        simp only [] at hr
        cases hins : dictGet node "instructions".data with
        | some iv =>
          rw [hins] at hr
          simp only [] at hr
          cases hin : asStr iv with
          | none => rw [hin] at hr; simp at hr
          | some nn =>
            rw [hin] at hr
            simp only [Option.bind_eq_bind, Option.some_bind] at hr
            cases hop : dictGet node "options".data with
            | none => rw [hop] at hr; simp at hr
            | some nl =>
              rw [hop] at hr
              simp only [Option.some_bind] at hr
              cases htyv : dictGet node "type".data with
              | none => rw [htyv] at hr; simp at hr
              | some tyv =>
                rw [htyv] at hr
                simp only [Option.some_bind] at hr
                cases hty : asStr tyv with
                | none => rw [hty] at hr; simp at hr
                | some node_type =>
                  rw [hty] at hr
                  simp only [Option.some_bind, Option.pure_def] at hr
                  cases hfs : dictGet node "featureSchemaId".data with
                  | none => rw [hfs] at hr; simp at hr
                  | some fsv =>
                    rw [hfs] at hr
                    simp only [Option.some_bind] at hr
                    cases hfss : asStr fsv with
                    | none => rw [hfss] at hr; simp at hr
                    | some fsid =>
                      rw [hfss] at hr
                      simp only [Option.some_bind] at hr
                      refine hfin nn nl _ ?_ hr
                      rw [nodeNameOf, htool, hins]
                      exact hin
        | none =>
          rw [hins] at hr
          simp only [] at hr
          cases hlab : dictGet node "label".data with
          | none => rw [hlab] at hr; simp at hr
          | some lv =>
            rw [hlab] at hr
            simp only [Option.bind_eq_bind, Option.some_bind] at hr
            cases hls : asStr lv with
            | none => rw [hls] at hr; simp at hr
            | some nn =>
              rw [hls] at hr
              simp only [Option.some_bind, Option.pure_def] at hr
              cases hfs : dictGet node "featureSchemaId".data with
              | none => rw [hfs] at hr; simp at hr
              | some fsv =>
                rw [hfs] at hr
                simp only [Option.some_bind] at hr
                cases hfss : asStr fsv with
                | none => rw [hfss] at hr; simp at hr
                | some fsid =>
                  rw [hfss] at hr
                  simp only [Option.some_bind] at hr
                  refine hfin nn ((dictGet node "options".data).getD (jarr [])) _ ?_ hr
                  rw [nodeNameOf, htool, hins, hlab]
                  simpa using hls

theorem dictGet_eq_none_of_keys {v : JVal} {key : Chars}
    (h : ∀ k ∈ dictKeys v, k ≠ key) : dictGet v key = none := by
  induction v with
  | objCons k1 v1 tl ih1 ih2 =>
    simp only [dictGet]
    rw [if_neg (h k1 (by
      simp only [dictKeys, jentries, List.map_cons]
      exact List.mem_cons_self _ _))]
    exact ih2 (fun k hk => h k (by
      simp only [dictKeys, jentries, List.map_cons]
      exact List.mem_cons_of_mem _ hk))
  | s c => rfl
  | num n => rfl
  | arrNil => rfl
  | arrCons hd tl ih1 ih2 => rfl
  | objNil => rfl

set_option maxHeartbeats 3200000 in
/-- C10 as amended: `ndjson_builder` reads `ontology_index['project_type']`
unconditionally (after the `ontology_index[top_level_name]["type"]` reads
of line 90), and the inverted detailed index built by
`get_ontology_schema_to_name_path` keys its entries only by name paths; a
nested name path always contains the divider, so unless a TOP-LEVEL node
of the ontology is itself named `"project_type"` (or named `""`, letting a
child surface at top level), the built index has no `project_type` key and
`ndjson_builder` raises `KeyError` for every `top_level_name` and every
annotation input.  Callers must add a `project_type` entry themselves. -/
theorem ndjson_builder_fails_on_pure_index (su : SetEnum)
    (maskB : JVal → JVal → JVal) (u top_level_name : Chars)
    (annot_input : List JVal) (confidence : Bool) (mask_method : Chars)
    (ont dict : JVal)
    (hb : get_ontology_schema_to_name_path ont div3 true true = some dict)
    (htop : ∀ node ∈ jitems ((dictGet ont "tools".data).getD JVal.arrNil) ++
        jitems ((dictGet ont "classifications".data).getD JVal.arrNil),
      ∀ nm, nodeNameOf node = some nm →
        nm ≠ "project_type".data ∧ nm ≠ []) :
    ndjson_builder su maskB u top_level_name annot_input dict confidence
      mask_method div3 = none := by
  apply ndjson_builder_missing_project_type
  apply dictGet_eq_none_of_keys
  rw [get_ontology_schema_to_name_path] at hb
  cases htl : dictGet ont "tools".data with
  | none => rw [htl] at hb; simp at hb
  | some tools =>
    rw [htl] at hb
    simp only [Option.bind_eq_bind, Option.some_bind] at hb
    have htools : ∀ node ∈ jitems tools, ∀ nm, nodeNameOf node = some nm →
        nm ≠ "project_type".data ∧ nm ≠ [] := by
      intro node hn nm hm
      exact htop node (by rw [htl]; simp only [Option.getD_some]; exact
        List.mem_append.mpr (Or.inl hn)) nm hm
    have hclsnodes : ∀ cls, dictGet ont "classifications".data = some cls →
        ∀ node ∈ jitems cls, ∀ nm, nodeNameOf node = some nm →
          nm ≠ "project_type".data ∧ nm ≠ [] := by
      intro cls hcls node hn nm hm
      exact htop node (by rw [hcls]; simp only [Option.getD_some]; exact
        List.mem_append.mpr (Or.inr hn)) nm hm
    have hfinish : ∀ (wd : JVal) (we : Nat),
        (∀ k ∈ dictKeys wd, k ≠ "project_type".data) →
        ((dictGet ont "classifications".data).bind fun cls =>
          if jTruthy cls then
            (map_layer div3 true true wd (jitems cls) [] we).bind fun res =>
              some res.1
          else some wd) = some dict →
        ∀ k ∈ dictKeys dict, k ≠ "project_type".data := by
      intro wd we hwd hrun
      obtain ⟨cls, hcls, hrun2⟩ := Option.bind_eq_some.mp hrun
      by_cases hct : jTruthy cls
      · rw [if_pos hct] at hrun2
        obtain ⟨res, hml2, hres⟩ := Option.bind_eq_some.mp hrun2
        simp only [Option.some.injEq] at hres
        rw [map_layer] at hml2
        rw [← hres]
        exact mlF_keys_pt true (jlsize (jitems cls)) (jitems cls) wd [] we
          res.1 res.2 (by rw [← Prod.mk.eta (p := res)] at hml2; exact hml2)
          hwd (Or.inr (hclsnodes cls hcls))
      · rw [if_neg hct] at hrun2
        simp only [Option.some.injEq] at hrun2
        rw [← hrun2]
        exact hwd
    by_cases htt : jTruthy tools
    · rw [if_pos htt] at hb
      cases hml : map_layer div3 true true (jobj []) (jitems tools) [] 0 with
      | none => rw [hml] at hb; simp at hb
      | some wdwe =>
        rw [hml] at hb
        simp only [Option.some_bind] at hb
        have hwd : ∀ k ∈ dictKeys wdwe.1, k ≠ "project_type".data := by
          rw [map_layer] at hml
          exact mlF_keys_pt true (jlsize (jitems tools)) (jitems tools) (jobj [])
            [] 0 wdwe.1 wdwe.2 (by rw [← Prod.mk.eta (p := wdwe)] at hml; exact hml)
            (fun k hk => by simp [dictKeys, jentries, jobj] at hk)
            (Or.inr htools)
        exact hfinish wdwe.1 wdwe.2 hwd (by exact hb)
    · rw [if_neg htt] at hb
      exact hfinish (jobj []) 0
        (fun k hk => by simp [dictKeys, jentries, jobj] at hk) (by exact hb)

/-- C10 counterexample: the claim fails in one corner — nothing stops an
ontology from having a TOP-LEVEL node literally named `project_type`.
For such an ontology the builder's inverted index does contain a
`project_type` key, and `ndjson_builder` completes successfully (no
KeyError) on a matching input. -/
theorem ndjson_builder_pure_index_cex :
    ((get_ontology_schema_to_name_path
        (jobj [("tools".data, jarr []),
          ("classifications".data, jarr [jobj
            [("instructions".data, JVal.s "project_type".data),
             ("type".data, JVal.s "radio".data),
             ("featureSchemaId".data, JVal.s "s1".data),
             ("options".data, jarr [jobj [("label".data, JVal.s "yes".data),
               ("featureSchemaId".data, JVal.s "s2".data)]])]])])
        div3 true true).bind (fun dict =>
      ndjson_builder pySet (fun _ c => c) "u0".data "project_type".data
        [JVal.s "yes".data] dict false "url".data div3)).isSome = true := by
  decide

/-- C10 witness for the amended theorem: a one-classification ontology
with no node named `project_type`; the built index lacks the key and the
encoder fails for an arbitrary input. -/
theorem ndjson_builder_fails_on_pure_index_witness :
    get_ontology_schema_to_name_path
        (jobj [("tools".data, jarr []),
          ("classifications".data, jarr [jobj
            [("instructions".data, JVal.s "color".data),
             ("type".data, JVal.s "radio".data),
             ("featureSchemaId".data, JVal.s "s1".data),
             ("options".data, jarr [jobj [("label".data, JVal.s "red".data),
               ("featureSchemaId".data, JVal.s "s2".data)]])]])])
        div3 true true =
      some (jobj [
        ("color".data, jobj [("name".data, JVal.s "color".data),
          ("type".data, JVal.s "radio".data),
          ("kind".data, JVal.s "classification".data),
          ("encoded_value".data, JVal.num 1),
          ("schema_id".data, JVal.s "s1".data)]),
        ("color///red".data, jobj [("name".data, JVal.s "red".data),
          ("type".data, JVal.s "option".data),
          ("kind".data, JVal.s "leaf_option".data),
          ("encoded_value".data, JVal.num 2),
          ("schema_id".data, JVal.s "s2".data)])]) ∧
    ndjson_builder pySet (fun _ c => c) "u".data "color".data
      [JVal.s "red".data]
      (jobj [
        ("color".data, jobj [("name".data, JVal.s "color".data),
          ("type".data, JVal.s "radio".data),
          ("kind".data, JVal.s "classification".data),
          ("encoded_value".data, JVal.num 1),
          ("schema_id".data, JVal.s "s1".data)]),
        ("color///red".data, jobj [("name".data, JVal.s "red".data),
          ("type".data, JVal.s "option".data),
          ("kind".data, JVal.s "leaf_option".data),
          ("encoded_value".data, JVal.num 2),
          ("schema_id".data, JVal.s "s2".data)])])
      false "url".data div3 = none := by
  constructor
  · decide
  · exact ndjson_builder_fails_on_pure_index pySet (fun _ c => c) "u".data
      "color".data [JVal.s "red".data] false "url".data
      (jobj [("tools".data, jarr []),
        ("classifications".data, jarr [jobj
          [("instructions".data, JVal.s "color".data),
           ("type".data, JVal.s "radio".data),
           ("featureSchemaId".data, JVal.s "s1".data),
           ("options".data, jarr [jobj [("label".data, JVal.s "red".data),
             ("featureSchemaId".data, JVal.s "s2".data)]])]])])
      _ (by decide)
      (by
        intro node hn nm hm
        have hn2 : node = jobj
            [("instructions".data, JVal.s "color".data),
             ("type".data, JVal.s "radio".data),
             ("featureSchemaId".data, JVal.s "s1".data),
             ("options".data, jarr [jobj [("label".data, JVal.s "red".data),
               ("featureSchemaId".data, JVal.s "s2".data)]])] := by
          rw [show jitems ((dictGet (jobj [("tools".data, jarr []),
            ("classifications".data, jarr [jobj
              [("instructions".data, JVal.s "color".data),
               ("type".data, JVal.s "radio".data),
               ("featureSchemaId".data, JVal.s "s1".data),
               ("options".data, jarr [jobj [("label".data, JVal.s "red".data),
                 ("featureSchemaId".data, JVal.s "s2".data)]])]])])
              "tools".data).getD JVal.arrNil) = [] from by decide,
            show jitems ((dictGet (jobj [("tools".data, jarr []),
            ("classifications".data, jarr [jobj
              [("instructions".data, JVal.s "color".data),
               ("type".data, JVal.s "radio".data),
               ("featureSchemaId".data, JVal.s "s1".data),
               ("options".data, jarr [jobj [("label".data, JVal.s "red".data),
                 ("featureSchemaId".data, JVal.s "s2".data)]])]])])
              "classifications".data).getD JVal.arrNil) = [jobj
            [("instructions".data, JVal.s "color".data),
             ("type".data, JVal.s "radio".data),
             ("featureSchemaId".data, JVal.s "s1".data),
             ("options".data, jarr [jobj [("label".data, JVal.s "red".data),
               ("featureSchemaId".data, JVal.s "s2".data)]])]] from by decide] at hn
          simpa using hn
        subst hn2
        rw [show nodeNameOf (jobj
            [("instructions".data, JVal.s "color".data),
             ("type".data, JVal.s "radio".data),
             ("featureSchemaId".data, JVal.s "s1".data),
             ("options".data, jarr [jobj [("label".data, JVal.s "red".data),
               ("featureSchemaId".data, JVal.s "s2".data)]])]) =
          some "color".data from by decide] at hm
        have hnm : nm = "color".data := (Option.some.inj hm).symm
        subst hnm
        constructor
        · decide
        · decide)

/-! ## Claim C2: the `encoded_value` pre-order counter -/

theorem preNodesF_nil : ∀ fuel, preNodesF fuel [] = [] := by
  intro fuel; cases fuel <;> rfl

theorem jitems_falsy {v : JVal} (h : jTruthy v = false) : jitems v = [] := by
  cases v <;> simp_all [jTruthy, jitems]

theorem dictKeys_cons (k : Chars) (v tl : JVal) :
    dictKeys (JVal.objCons k v tl) = k :: dictKeys tl := rfl

theorem dictSet_fresh : ∀ (fd : JVal), wfObj fd = true → ∀ (k : Chars) (v : JVal),
    k ∉ dictKeys fd →
    jentries (dictSet fd k v) = jentries fd ++ [(k, v)] ∧
      wfObj (dictSet fd k v) = true := by
  intro fd
  induction fd with
  | objNil =>
    intro _ k v _
    exact ⟨rfl, rfl⟩
  | objCons k1 v1 tl _ ih2 =>
    intro hwf k v hk
    simp only [wfObj] at hwf
    rw [dictKeys_cons] at hk
    have hne : k1 ≠ k := by
      intro he
      subst he
      exact hk (List.mem_cons_self k1 _)
    have hk2 : k ∉ dictKeys tl := fun hm => hk (List.mem_cons_of_mem _ hm)
    have hrec := ih2 hwf k v hk2
    constructor
    · simp only [dictSet, if_neg hne, jentries]
      rw [hrec.1]
      simp
    · simp only [dictSet, if_neg hne, wfObj]
      exact hrec.2
  | s c => intro hwf; simp [wfObj] at hwf
  | num n => intro hwf; simp [wfObj] at hwf
  | arrNil => intro hwf; simp [wfObj] at hwf
  | arrCons hd tl _ _ => intro hwf; simp [wfObj] at hwf

theorem mapM_append_option {α β : Type} (f : α → Option β) :
    ∀ (l1 l2 : List α),
      (l1 ++ l2).mapM f =
        (l1.mapM f).bind fun a => (l2.mapM f).map fun b => a ++ b := by
  intro l1 l2
  induction l1 with
  | nil =>
    rw [List.nil_append, show ([] : List α).mapM f = some [] from rfl]
    cases hb : l2.mapM f with
    | none => rfl
    | some b => simp
  | cons x rest ih =>
    rw [List.cons_append, List.mapM_cons, List.mapM_cons]
    cases hfx : f x with
    | none => simp only [Option.bind_eq_bind, Option.none_bind]
    | some y =>
      simp only [Option.bind_eq_bind, Option.some_bind]
      rw [ih]
      cases ha : rest.mapM f with
      | none => simp
      | some a =>
        cases hb : l2.mapM f with
        | none => simp
        | some b => simp

theorem mapM_length_option {α β : Type} {f : α → Option β} :
    ∀ {l : List α} {r : List β}, l.mapM f = some r → r.length = l.length := by
  intro l
  induction l with
  | nil =>
    intro r h
    have h2 : (some [] : Option (List β)) = some r := h
    rw [← Option.some.inj h2]
    rfl
  | cons x rest ih =>
    intro r h
    rw [List.mapM_cons] at h
    cases hx : f x with
    | none =>
      rw [hx] at h
      simp only [Option.bind_eq_bind, Option.none_bind] at h
      exact Option.noConfusion h
    | some y =>
      rw [hx] at h
      simp only [Option.bind_eq_bind, Option.some_bind] at h
      cases hr : rest.mapM f with
      | none =>
        rw [hr] at h
        simp only [Option.none_bind] at h
        exact Option.noConfusion h
      | some a =>
        rw [hr] at h
        simp only [Option.some_bind, Option.pure_def, Option.some.injEq] at h
        rw [← h]
        simp [ih hr]

theorem encVals_append : ∀ (m s n : Nat),
    encVals s (m + n) = encVals s m ++ encVals (s + m) n := by
  intro m
  induction m with
  | zero => intro s n; simp [encVals]
  | succ p ih =>
    intro s n
    have h1 : p + 1 + n = (p + n) + 1 := by omega
    rw [h1]
    simp only [encVals, ih (s + 1) n, List.cons_append]
    have h2 : s + 1 + p = s + (p + 1) := by omega
    rw [h2]

theorem dictGet_detail_encoded (nn nt nk np2 : Chars) (ev : Int) :
    dictGet (jobj [("name".data, JVal.s nn), ("type".data, JVal.s nt),
      ("kind".data, JVal.s nk), ("encoded_value".data, JVal.num ev),
      ("name_path".data, JVal.s np2)]) "encoded_value".data =
      some (JVal.num ev) := by
  simp only [jobj, dictGet]
  simp

theorem mlF_nil (divider : Chars) (invert detailed : Bool) (fuel : Nat) (fd : JVal)
    (pnp : Chars) (e : Nat) :
    mlF divider invert detailed fuel fd [] pnp e = some (fd, e) := by
  cases fuel <;> rfl

theorem mlF_encoded_entries (divider : Chars) :
    ∀ fuel layer fd pnp e fd2 e2 ls,
      mlF divider false true fuel fd layer pnp e = some (fd2, e2) →
      wfObj fd = true →
      (preNodesF fuel layer).mapM schemaIdOf = some ls →
      (dictKeys fd ++ ls).Nodup →
      wfObj fd2 = true ∧ e2 = e + ls.length ∧
        ∃ newE : List (Chars × JVal),
          jentries fd2 = jentries fd ++ newE ∧
          newE.map Prod.fst = ls ∧
          newE.map (fun p => dictGet p.2 "encoded_value".data) =
            encVals (e + 1) ls.length := by
  intro fuel
  induction fuel with
  | zero =>
    intro layer fd pnp e fd2 e2 ls hml hwf hsd hnd
    cases layer with
    | nil =>
      rw [mlF_nil] at hml
      have h1 : fd = fd2 := congrArg Prod.fst (Option.some.inj hml)
      have h2 : e = e2 := congrArg Prod.snd (Option.some.inj hml)
      rw [preNodesF_nil] at hsd
      have hls : ls = [] := (Option.some.inj hsd).symm
      subst hls
      exact ⟨h1 ▸ hwf, by simp [← h2], [], by simp [← h1], rfl, rfl⟩
    | cons node rest => exact Option.noConfusion hml
  | succ fuel ih =>
    intro layer fd pnp e fd2 e2 ls hml hwf hsd hnd
    cases layer with
    | nil =>
      rw [mlF_nil] at hml
      have h1 : fd = fd2 := congrArg Prod.fst (Option.some.inj hml)
      have h2 : e = e2 := congrArg Prod.snd (Option.some.inj hml)
      rw [preNodesF_nil] at hsd
      have hls : ls = [] := (Option.some.inj hsd).symm
      subst hls
      exact ⟨h1 ▸ hwf, by simp [← h2], [], by simp [← h1], rfl, rfl⟩
    | cons node rest =>
      rw [show preNodesF (fuel + 1) (node :: rest) =
        node :: (preNodesF fuel (childLayer node) ++ preNodesF fuel rest) from rfl,
        List.mapM_cons] at hsd
      cases hs0 : schemaIdOf node with
      | none =>
        rw [hs0] at hsd
        simp only [Option.bind_eq_bind, Option.none_bind] at hsd
        exact Option.noConfusion hsd
      | some s0 =>
        rw [hs0] at hsd
        simp only [Option.bind_eq_bind, Option.some_bind] at hsd
        rw [mapM_append_option] at hsd
        cases hA : (preNodesF fuel (childLayer node)).mapM schemaIdOf with
        | none =>
          rw [hA] at hsd
          simp only [Option.none_bind, Option.bind_eq_bind] at hsd
          exact Option.noConfusion hsd
        | some lsA =>
          rw [hA] at hsd
          simp only [Option.bind_eq_bind, Option.some_bind] at hsd
          cases hB : (preNodesF fuel rest).mapM schemaIdOf with
          | none =>
            rw [hB] at hsd
            simp only [Option.map_none', Option.none_bind] at hsd
            exact Option.noConfusion hsd
          | some lsB =>
            rw [hB] at hsd
            simp only [Option.map_some', Option.some_bind, Option.pure_def,
              Option.some.injEq] at hsd
            subst hsd
            have hnd2 : (((dictKeys fd ++ [s0]) ++ lsA) ++ lsB).Nodup := by
              rw [List.append_cons, ← List.append_assoc] at hnd
              exact hnd
            have hfresh : s0 ∉ dictKeys fd := by
              intro hmem
              have h3 : (dictKeys fd ++ [s0]).Nodup :=
                (hnd2.of_append_left).of_append_left
              rw [List.nodup_append] at h3
              exact h3.2.2 hmem (by simp)
            have hfin : ∀ (nl dv : JVal) (np : Chars),
                (if jTruthy nl then
                  (mlF divider false true fuel (dictSet fd s0 dv) (jitems nl) np
                    (e + 1)).bind fun y =>
                      mlF divider false true fuel y.1 rest pnp y.2
                 else mlF divider false true fuel (dictSet fd s0 dv) rest pnp (e + 1)) =
                  some (fd2, e2) →
                dictGet dv "encoded_value".data = some (JVal.num ((e + 1 : Nat) : Int)) →
                childLayer node = jitems nl →
                wfObj fd2 = true ∧ e2 = e + (s0 :: (lsA ++ lsB)).length ∧
                  ∃ newE : List (Chars × JVal),
                    jentries fd2 = jentries fd ++ newE ∧
                    newE.map Prod.fst = s0 :: (lsA ++ lsB) ∧
                    newE.map (fun p => dictGet p.2 "encoded_value".data) =
                      encVals (e + 1) (s0 :: (lsA ++ lsB)).length := by
              intro nl dv np hml2 hencdv hcl2
              obtain ⟨hfde, hfdw⟩ := dictSet_fresh fd hwf s0 dv hfresh
              have hkeys1 : dictKeys (dictSet fd s0 dv) = dictKeys fd ++ [s0] := by
                simp [dictKeys, hfde]
              by_cases htr : jTruthy nl
              · rw [if_pos htr] at hml2
                rw [Option.bind_eq_some] at hml2
                obtain ⟨⟨fdc, ec⟩, hchild, hrest⟩ := hml2
                have hAnl : (preNodesF fuel (jitems nl)).mapM schemaIdOf = some lsA := by
                  rw [← hcl2]; exact hA
                have hndA : (dictKeys (dictSet fd s0 dv) ++ lsA).Nodup := by
                  rw [hkeys1]
                  exact hnd2.of_append_left
                obtain ⟨hwfc, hecc, newA, hEc, hfstA, hencA⟩ :=
                  ih (jitems nl) (dictSet fd s0 dv) np (e + 1) fdc ec lsA hchild hfdw
                    hAnl hndA
                have hkeysc : dictKeys fdc = (dictKeys fd ++ [s0]) ++ lsA := by
                  simp only [dictKeys, hEc, hfde, List.map_append, hfstA]
                  simp [dictKeys]
                have hndB : (dictKeys fdc ++ lsB).Nodup := by
                  rw [hkeysc]; exact hnd2
                obtain ⟨hwf2, he2, newB, hEb, hfstB, hencB⟩ :=
                  ih rest fdc pnp ec fd2 e2 lsB hrest hwfc hB hndB
                refine ⟨hwf2, ?_, (s0, dv) :: (newA ++ newB), ?_, ?_, ?_⟩
                · simp only [List.length_cons, List.length_append]
                  have hlA := mapM_length_option hAnl
                  omega
                · rw [hEb, hEc, hfde]
                  simp [List.append_assoc]
                · simp [hfstA, hfstB]
                · simp only [List.map_cons, List.map_append, hencA, hencB, hencdv]
                  rw [show (s0 :: (lsA ++ lsB)).length =
                    (lsA.length + lsB.length) + 1 from by simp]
                  rw [show encVals (e + 1) ((lsA.length + lsB.length) + 1) =
                    some (JVal.num ((e + 1 : Nat) : Int)) ::
                      encVals (e + 1 + 1) (lsA.length + lsB.length) from rfl]
                  congr 1
                  rw [encVals_append lsA.length (e + 1 + 1) lsB.length]
                  congr 1
                  have h4 : ec + 1 = e + 1 + 1 + lsA.length := by omega
                  rw [h4]
              · rw [if_neg htr] at hml2
                have hfalse : jTruthy nl = false := by
                  revert htr; cases jTruthy nl <;> simp
                have hlsA : lsA = [] := by
                  have h5 : (preNodesF fuel (jitems nl)).mapM schemaIdOf = some lsA := by
                    rw [← hcl2]; exact hA
                  rw [jitems_falsy hfalse, preNodesF_nil] at h5
                  have h6 : (some ([] : List Chars) : Option (List Chars)) = some lsA := h5
                  exact (Option.some.inj h6).symm
                subst hlsA
                have hndB : (dictKeys (dictSet fd s0 dv) ++ lsB).Nodup := by
                  rw [hkeys1]
                  rw [List.append_nil] at hnd2
                  exact hnd2
                obtain ⟨hwf2, he2, newB, hEb, hfstB, hencB⟩ :=
                  ih rest (dictSet fd s0 dv) pnp (e + 1) fd2 e2 lsB hml2 hfdw hB hndB
                refine ⟨hwf2, ?_, (s0, dv) :: newB, ?_, ?_, ?_⟩
                · simp only [List.length_cons, List.length_append, List.nil_append,
                    List.length_nil]
                  omega
                · rw [hEb, hfde]
                  simp
                · simp [hfstB]
                · simp only [List.map_cons, hencB, hencdv]
                  rw [show (s0 :: (([] : List Chars) ++ lsB)).length =
                    lsB.length + 1 from by simp]
                  rw [show encVals (e + 1) (lsB.length + 1) =
                    some (JVal.num ((e + 1 : Nat) : Int)) ::
                      encVals (e + 1 + 1) lsB.length from rfl]
            rw [mlF] at hml
            cases htool : dictGet node "tool".data with
            | some tv =>
              rw [htool] at hml
              simp only [] at hml
              cases hname : dictGet node "name".data with
              | none =>
                rw [hname] at hml
                simp only [Option.bind_eq_bind, Option.none_bind] at hml
                exact Option.noConfusion hml
              | some namev =>
                rw [hname] at hml
                simp only [Option.bind_eq_bind, Option.some_bind] at hml
                cases hnn : asStr namev with
                | none =>
                  rw [hnn] at hml
                  simp only [Option.none_bind] at hml
                  exact Option.noConfusion hml
                | some node_name =>
                  rw [hnn] at hml
                  simp only [Option.some_bind] at hml
                  cases hcl : dictGet node "classifications".data with
                  | none =>
                    rw [hcl] at hml
                    simp only [Option.none_bind] at hml
                    exact Option.noConfusion hml
                  | some next_layer =>
                    rw [hcl] at hml
                    simp only [Option.some_bind] at hml
                    cases hty : asStr tv with
                    | none =>
                      rw [hty] at hml
                      simp only [Option.none_bind] at hml
                      exact Option.noConfusion hml
                    | some node_type =>
                      rw [hty] at hml
                      simp only [Option.some_bind, Option.pure_def] at hml
                      cases hfs : dictGet node "featureSchemaId".data with
                      | none =>
                        rw [hfs] at hml
                        simp only [Option.none_bind] at hml
                        exact Option.noConfusion hml
                      | some fsv =>
                        rw [hfs] at hml
                        simp only [Option.some_bind] at hml
                        cases hfss : asStr fsv with
                        | none =>
                          rw [hfss] at hml
                          simp only [Option.none_bind] at hml
                          exact Option.noConfusion hml
                        | some fsid =>
                          rw [hfss] at hml
                          simp only [Option.some_bind] at hml
                          have hfs0 : fsid = s0 := by
                            have h7 : schemaIdOf node = some fsid := by
                              rw [schemaIdOf, hfs]
                              simpa using hfss
                            rw [h7] at hs0
                            exact Option.some.inj hs0
                          subst hfs0
                          simp only [Bool.not_false, eq_self_iff_true, if_true] at hml
                          exact hfin next_layer _ _ hml
                            (dictGet_detail_encoded _ _ _ _ _)
                            (by unfold childLayer; rw [htool]; simp only []
                                rw [hcl]; rfl)
            | none =>
              rw [htool] at hml
              simp only [] at hml
              cases hins : dictGet node "instructions".data with
              | some iv =>
                rw [hins] at hml
                simp only [] at hml
                cases hin : asStr iv with
                | none =>
                  rw [hin] at hml
                  simp only [Option.bind_eq_bind, Option.none_bind] at hml
                  exact Option.noConfusion hml
                | some node_name =>
                  rw [hin] at hml
                  simp only [Option.bind_eq_bind, Option.some_bind] at hml
                  cases hop : dictGet node "options".data with
                  | none =>
                    rw [hop] at hml
                    simp only [Option.none_bind] at hml
                    exact Option.noConfusion hml
                  | some next_layer =>
                    rw [hop] at hml
                    simp only [Option.some_bind] at hml
                    cases htyv : dictGet node "type".data with
                    | none =>
                      rw [htyv] at hml
                      simp only [Option.none_bind] at hml
                      exact Option.noConfusion hml
                    | some tyv =>
                      rw [htyv] at hml
                      simp only [Option.some_bind] at hml
                      cases hty : asStr tyv with
                      | none =>
                        rw [hty] at hml
                        simp only [Option.none_bind] at hml
                        exact Option.noConfusion hml
                      | some node_type =>
                        rw [hty] at hml
                        simp only [Option.some_bind, Option.pure_def] at hml
                        cases hfs : dictGet node "featureSchemaId".data with
                        | none =>
                          rw [hfs] at hml
                          simp only [Option.none_bind] at hml
                          exact Option.noConfusion hml
                        | some fsv =>
                          rw [hfs] at hml
                          simp only [Option.some_bind] at hml
                          cases hfss : asStr fsv with
                          | none =>
                            rw [hfss] at hml
                            simp only [Option.none_bind] at hml
                            exact Option.noConfusion hml
                          | some fsid =>
                            rw [hfss] at hml
                            simp only [Option.some_bind] at hml
                            have hfs0 : fsid = s0 := by
                              have h7 : schemaIdOf node = some fsid := by
                                rw [schemaIdOf, hfs]
                                simpa using hfss
                              rw [h7] at hs0
                              exact Option.some.inj hs0
                            subst hfs0
                            simp only [Bool.not_false, eq_self_iff_true, if_true] at hml
                            exact hfin next_layer _ _ hml
                              (dictGet_detail_encoded _ _ _ _ _)
                              (by unfold childLayer; rw [htool]; simp only []
                                  rw [hins]; simp only []
                                  rw [hop]; rfl)
              | none =>
                rw [hins] at hml
                simp only [] at hml
                cases hlab : dictGet node "label".data with
                | none =>
                  rw [hlab] at hml
                  simp only [Option.bind_eq_bind, Option.none_bind] at hml
                  exact Option.noConfusion hml
                | some lv =>
                  rw [hlab] at hml
                  simp only [Option.bind_eq_bind, Option.some_bind] at hml
                  cases hls : asStr lv with
                  | none =>
                    rw [hls] at hml
                    simp only [Option.none_bind] at hml
                    exact Option.noConfusion hml
                  | some node_name =>
                    rw [hls] at hml
                    simp only [Option.some_bind, Option.pure_def] at hml
                    cases hfs : dictGet node "featureSchemaId".data with
                    | none =>
                      rw [hfs] at hml
                      simp only [Option.none_bind] at hml
                      exact Option.noConfusion hml
                    | some fsv =>
                      rw [hfs] at hml
                      simp only [Option.some_bind] at hml
                      cases hfss : asStr fsv with
                      | none =>
                        rw [hfss] at hml
                        simp only [Option.none_bind] at hml
                        exact Option.noConfusion hml
                      | some fsid =>
                        rw [hfss] at hml
                        simp only [Option.some_bind] at hml
                        have hfs0 : fsid = s0 := by
                          have h7 : schemaIdOf node = some fsid := by
                            rw [schemaIdOf, hfs]
                            simpa using hfss
                          rw [h7] at hs0
                          exact Option.some.inj hs0
                        subst hfs0
                        simp only [Bool.not_false, eq_self_iff_true, if_true] at hml
                        cases hop : dictGet node "options".data with
                        | some ov =>
                          rw [hop] at hml
                          simp only [Option.getD_some] at hml
                          exact hfin ov _ _ hml
                            (dictGet_detail_encoded _ _ _ _ _)
                            (by unfold childLayer; rw [htool]; simp only []
                                rw [hins]; simp only []
                                rw [hop]; rfl)
                        | none =>
                          rw [hop] at hml
                          simp only [Option.getD_none] at hml
                          exact hfin (jarr []) _ _ hml
                            (dictGet_detail_encoded _ _ _ _ _)
                            (by unfold childLayer; rw [htool]; simp only []
                                rw [hins]; simp only []
                                rw [hop]; rfl)

/-- C2: for every ontology whose nodes carry pairwise-distinct
`featureSchemaId`s, the index built by `get_ontology_schema_to_name_path`
(schema-id keys, detailed values) has exactly one entry per ontology node,
its keys listed in depth-first pre-order -- the tools layer first, then
the classifications layer -- and the `encoded_value` field of the i-th
entry is the 1-based pre-order position i (the counter is shared across
the two layers), hence strictly increasing and unique; the build is also
deterministic. -/
theorem get_ontology_encoded_value_preorder (ont fd : JVal) (sids : List Chars)
    (hb : get_ontology_schema_to_name_path ont div3 false true = some fd)
    (hsid : (ontNodes ont).mapM schemaIdOf = some sids)
    (hnd : sids.Nodup) :
    dictKeys fd = sids ∧
    (jentries fd).map (fun p => dictGet p.2 "encoded_value".data) =
      encVals 1 (ontNodes ont).length ∧
    ∀ fd' : JVal, get_ontology_schema_to_name_path ont div3 false true = some fd' →
      fd' = fd := by
  have hdet : ∀ fd' : JVal,
      get_ontology_schema_to_name_path ont div3 false true = some fd' → fd' = fd := by
    intro fd' hb'
    rw [hb] at hb'
    exact (Option.some.inj hb').symm
  rw [get_ontology_schema_to_name_path] at hb
  cases htools : dictGet ont "tools".data with
  | none =>
    rw [htools] at hb
    simp only [Option.bind_eq_bind, Option.none_bind] at hb
    exact Option.noConfusion hb
  | some tools =>
    rw [htools] at hb
    simp only [Option.bind_eq_bind, Option.some_bind] at hb
    have hON : ontNodes ont =
        (if jTruthy tools then preNodes (jitems tools) else []) ++
        (if jTruthy ((dictGet ont "classifications".data).getD JVal.arrNil) then
          preNodes (jitems ((dictGet ont "classifications".data).getD JVal.arrNil))
        else []) := by
      rw [ontNodes, htools]
      simp only [Option.getD_some]
    by_cases htt : jTruthy tools
    · rw [if_pos htt] at hb
      rw [map_layer, Option.bind_eq_some] at hb
      obtain ⟨⟨wd, we⟩, hT, hb2⟩ := hb
      simp only [] at hb2
      cases hcls : dictGet ont "classifications".data with
      | none =>
        rw [hcls] at hb2
        simp only [Option.bind_eq_bind, Option.none_bind] at hb2
        exact Option.noConfusion hb2
      | some cls =>
        rw [hcls] at hb2
        simp only [Option.bind_eq_bind, Option.some_bind] at hb2
        rw [hON, if_pos htt, hcls] at hsid
        simp only [Option.getD_some] at hsid
        rw [mapM_append_option] at hsid
        cases hsT : (preNodes (jitems tools)).mapM schemaIdOf with
        | none =>
          rw [hsT] at hsid
          simp only [Option.none_bind] at hsid
          exact Option.noConfusion hsid
        | some sidsT =>
          rw [hsT] at hsid
          simp only [Option.some_bind] at hsid
          by_cases htc : jTruthy cls
          · rw [if_pos htc] at hb2 hsid
            rw [map_layer, Option.bind_eq_some] at hb2
            obtain ⟨⟨fdc, ec⟩, hC, hpure⟩ := hb2
            simp only [Option.pure_def, Option.some.injEq] at hpure
            cases hsC : (preNodes (jitems cls)).mapM schemaIdOf with
            | none =>
              rw [hsC] at hsid
              simp only [Option.map_none'] at hsid
              exact Option.noConfusion hsid
            | some sidsC =>
              rw [hsC] at hsid
              simp only [Option.map_some', Option.some.injEq] at hsid
              subst hsid
              obtain ⟨hwfT, hweT, newT, hET, hfstT, hencT⟩ :=
                mlF_encoded_entries div3 (jlsize (jitems tools)) (jitems tools)
                  (jobj []) [] 0 wd we sidsT hT (by rfl) hsT
                  (by simpa [dictKeys, jentries, jobj] using hnd.of_append_left)
              have hkwd : dictKeys wd = sidsT := by
                rw [dictKeys, hET]
                simp [jentries, jobj, hfstT]
              obtain ⟨hwfC, hweC, newC, hEC, hfstC, hencC⟩ :=
                mlF_encoded_entries div3 (jlsize (jitems cls)) (jitems cls)
                  wd [] we fdc ec sidsC hC hwfT hsC (by rw [hkwd]; exact hnd)
              subst hpure
              refine ⟨?_, ?_, hdet⟩
              · rw [dictKeys, hEC, hET]
                simp [jentries, jobj, hfstT, hfstC]
              · rw [hEC, hET]
                simp only [jentries, jobj, List.nil_append, List.map_append]
                rw [hencT, hencC]
                have hlT := mapM_length_option hsT
                have hlC := mapM_length_option hsC
                rw [hON, if_pos htt, hcls]
                simp only [Option.getD_some, if_pos htc, List.length_append]
                rw [← hlT, ← hlC]
                rw [encVals_append sidsT.length 1 sidsC.length]
                congr 1
                congr 1
                omega
          · rw [if_neg htc] at hb2 hsid
            simp only [Option.pure_def, Option.some.injEq] at hb2
            simp only [show (([] : List JVal).mapM schemaIdOf) = some [] from rfl,
              Option.map_some', Option.some.injEq, List.append_nil] at hsid
            subst hsid
            obtain ⟨hwfT, hweT, newT, hET, hfstT, hencT⟩ :=
              mlF_encoded_entries div3 (jlsize (jitems tools)) (jitems tools)
                (jobj []) [] 0 wd we sidsT hT (by rfl) hsT
                (by simpa [dictKeys, jentries, jobj] using hnd)
            subst hb2
            refine ⟨?_, ?_, hdet⟩
            · rw [dictKeys, hET]
              simp [jentries, jobj, hfstT]
            · rw [hET]
              simp only [jentries, jobj, List.nil_append]
              rw [hencT]
              have hlT := mapM_length_option hsT
              rw [hON, if_pos htt, hcls]
              simp only [Option.getD_some, if_neg htc, List.append_nil]
              rw [← hlT]
    · rw [if_neg htt] at hb
      cases hcls : dictGet ont "classifications".data with
      | none =>
        rw [hcls] at hb
        simp only [Option.bind_eq_bind, Option.none_bind] at hb
        exact Option.noConfusion hb
      | some cls =>
        rw [hcls] at hb
        simp only [Option.bind_eq_bind, Option.some_bind] at hb
        rw [hON, if_neg htt, hcls] at hsid
        simp only [Option.getD_some, List.nil_append] at hsid
        by_cases htc : jTruthy cls
        · rw [if_pos htc] at hb hsid
          rw [map_layer, Option.bind_eq_some] at hb
          obtain ⟨⟨fdc, ec⟩, hC, hpure⟩ := hb
          simp only [Option.pure_def, Option.some.injEq] at hpure
          obtain ⟨hwfC, hweC, newC, hEC, hfstC, hencC⟩ :=
            mlF_encoded_entries div3 (jlsize (jitems cls)) (jitems cls)
              (jobj []) [] 0 fdc ec sids hC (by rfl) hsid
              (by simpa [dictKeys, jentries, jobj] using hnd)
          subst hpure
          refine ⟨?_, ?_, hdet⟩
          · rw [dictKeys, hEC]
            simp [jentries, jobj, hfstC]
          · rw [hEC]
            simp only [jentries, jobj, List.nil_append]
            rw [hencC]
            have hlC := mapM_length_option hsid
            rw [hON, if_neg htt, hcls]
            simp only [Option.getD_some, if_pos htc, List.nil_append]
            rw [← hlC]
        · rw [if_neg htc] at hb hsid
          simp only [Option.pure_def, Option.some.injEq] at hb
          have hsids : sids = [] := by
            have h8 : (some ([] : List Chars)) = some sids := hsid
            exact (Option.some.inj h8).symm
          subst hsids
          subst hb
          refine ⟨rfl, ?_, hdet⟩
          rw [hON, if_neg htt, hcls]
          simp only [Option.getD_some, if_neg htc, List.append_nil]
          rfl

/-- C2 witness: a two-layer ontology (one tool `bbox`, one radio
classification `color` with option `red`); the index keys are the three
schema ids in pre-order and the `encoded_value` fields are 1, 2, 3. -/
theorem get_ontology_encoded_value_preorder_witness :
    get_ontology_schema_to_name_path
        (jobj [("tools".data, jarr [jobj
            [("tool".data, JVal.s "rectangle".data),
             ("name".data, JVal.s "bbox".data),
             ("classifications".data, jarr []),
             ("featureSchemaId".data, JVal.s "t1".data)]]),
          ("classifications".data, jarr [jobj
            [("instructions".data, JVal.s "color".data),
             ("type".data, JVal.s "radio".data),
             ("featureSchemaId".data, JVal.s "c1".data),
             ("options".data, jarr [jobj [("label".data, JVal.s "red".data),
               ("featureSchemaId".data, JVal.s "o1".data)]])]])])
        div3 false true =
      some (jobj [
        ("t1".data, jobj [("name".data, JVal.s "bbox".data),
          ("type".data, JVal.s "rectangle".data),
          ("kind".data, JVal.s "tool".data),
          ("encoded_value".data, JVal.num 1),
          ("name_path".data, JVal.s "bbox".data)]),
        ("c1".data, jobj [("name".data, JVal.s "color".data),
          ("type".data, JVal.s "radio".data),
          ("kind".data, JVal.s "classification".data),
          ("encoded_value".data, JVal.num 2),
          ("name_path".data, JVal.s "color".data)]),
        ("o1".data, jobj [("name".data, JVal.s "red".data),
          ("type".data, JVal.s "option".data),
          ("kind".data, JVal.s "leaf_option".data),
          ("encoded_value".data, JVal.num 3),
          ("name_path".data, JVal.s "color///red".data)])]) ∧
    ["t1".data, "c1".data, "o1".data].Nodup ∧
    (dictKeys (jobj [
        ("t1".data, jobj [("name".data, JVal.s "bbox".data),
          ("type".data, JVal.s "rectangle".data),
          ("kind".data, JVal.s "tool".data),
          ("encoded_value".data, JVal.num 1),
          ("name_path".data, JVal.s "bbox".data)]),
        ("c1".data, jobj [("name".data, JVal.s "color".data),
          ("type".data, JVal.s "radio".data),
          ("kind".data, JVal.s "classification".data),
          ("encoded_value".data, JVal.num 2),
          ("name_path".data, JVal.s "color".data)]),
        ("o1".data, jobj [("name".data, JVal.s "red".data),
          ("type".data, JVal.s "option".data),
          ("kind".data, JVal.s "leaf_option".data),
          ("encoded_value".data, JVal.num 3),
          ("name_path".data, JVal.s "color///red".data)])]) =
        ["t1".data, "c1".data, "o1".data] ∧
      (jentries (jobj [
        ("t1".data, jobj [("name".data, JVal.s "bbox".data),
          ("type".data, JVal.s "rectangle".data),
          ("kind".data, JVal.s "tool".data),
          ("encoded_value".data, JVal.num 1),
          ("name_path".data, JVal.s "bbox".data)]),
        ("c1".data, jobj [("name".data, JVal.s "color".data),
          ("type".data, JVal.s "radio".data),
          ("kind".data, JVal.s "classification".data),
          ("encoded_value".data, JVal.num 2),
          ("name_path".data, JVal.s "color".data)]),
        ("o1".data, jobj [("name".data, JVal.s "red".data),
          ("type".data, JVal.s "option".data),
          ("kind".data, JVal.s "leaf_option".data),
          ("encoded_value".data, JVal.num 3),
          ("name_path".data, JVal.s "color///red".data)])])).map
          (fun p => dictGet p.2 "encoded_value".data) =
        encVals 1 (ontNodes (jobj [("tools".data, jarr [jobj
            [("tool".data, JVal.s "rectangle".data),
             ("name".data, JVal.s "bbox".data),
             ("classifications".data, jarr []),
             ("featureSchemaId".data, JVal.s "t1".data)]]),
          ("classifications".data, jarr [jobj
            [("instructions".data, JVal.s "color".data),
             ("type".data, JVal.s "radio".data),
             ("featureSchemaId".data, JVal.s "c1".data),
             ("options".data, jarr [jobj [("label".data, JVal.s "red".data),
               ("featureSchemaId".data, JVal.s "o1".data)]])]])])).length ∧
      ∀ fd' : JVal, get_ontology_schema_to_name_path
        (jobj [("tools".data, jarr [jobj
            [("tool".data, JVal.s "rectangle".data),
             ("name".data, JVal.s "bbox".data),
             ("classifications".data, jarr []),
             ("featureSchemaId".data, JVal.s "t1".data)]]),
          ("classifications".data, jarr [jobj
            [("instructions".data, JVal.s "color".data),
             ("type".data, JVal.s "radio".data),
             ("featureSchemaId".data, JVal.s "c1".data),
             ("options".data, jarr [jobj [("label".data, JVal.s "red".data),
               ("featureSchemaId".data, JVal.s "o1".data)]])]])])
        div3 false true = some fd' →
        fd' = jobj [
        ("t1".data, jobj [("name".data, JVal.s "bbox".data),
          ("type".data, JVal.s "rectangle".data),
          ("kind".data, JVal.s "tool".data),
          ("encoded_value".data, JVal.num 1),
          ("name_path".data, JVal.s "bbox".data)]),
        ("c1".data, jobj [("name".data, JVal.s "color".data),
          ("type".data, JVal.s "radio".data),
          ("kind".data, JVal.s "classification".data),
          ("encoded_value".data, JVal.num 2),
          ("name_path".data, JVal.s "color".data)]),
        ("o1".data, jobj [("name".data, JVal.s "red".data),
          ("type".data, JVal.s "option".data),
          ("kind".data, JVal.s "leaf_option".data),
          ("encoded_value".data, JVal.num 3),
          ("name_path".data, JVal.s "color///red".data)])]) :=
  ⟨by decide, by decide,
   get_ontology_encoded_value_preorder _ _ ["t1".data, "c1".data, "o1".data]
     (by decide) (by decide) (by decide)⟩
